import Mathlib

/-!
Verification of the troubadour virtual audio mixer core.

The Rust source is embedded shallowly:
* `f32`/`f64` scalars are idealised as exact real numbers (`ℝ`) where the
  code computes transcendental functions (decibel conversions, envelope
  coefficients), and as exact rationals (`ℚ`) in the purely
  rational-arithmetic components (ring buffer samples, resampler);
* `HashMap` is modelled as an association list whose operations mirror the
  map semantics (insert replaces, lookup finds the unique key);
* functions that mutate `&mut self` and return `Result<T>` are modelled as
  pure functions returning the new state together with an `Except` value.
-/

namespace Troubadour

/-- Numeric clamp, `x.clamp(lo, hi)` of Rust for reals. -/
noncomputable def clampR (x lo hi : ℝ) : ℝ := max lo (min x hi)

/-! ### Value types (`crates/core/src/domain/mixer.rs`) -/

namespace VolumeDecibels

/-- `VolumeDecibels::MIN_GAIN = -60.0`. -/
def MIN_GAIN : ℝ := -60

/-- `VolumeDecibels::UNITY_GAIN = 0.0`. -/
def UNITY_GAIN : ℝ := 0

/-- `VolumeDecibels::MAX_GAIN = 6.0`. -/
def MAX_GAIN : ℝ := 6

/-- `VolumeDecibels::new`: clamp the decibel value into `[-60, 6]`. -/
noncomputable def new (db : ℝ) : ℝ := clampR db MIN_GAIN MAX_GAIN

/-- `VolumeDecibels::to_amplitude`: `0` at the floor, otherwise `10^(db/20)`. -/
noncomputable def to_amplitude (db : ℝ) : ℝ :=
  if db ≤ MIN_GAIN then 0 else (10 : ℝ) ^ (db / 20)

/-- `VolumeDecibels::from_amplitude`: `20·log10 amp` for positive amplitude,
the floor for non-positive amplitude, then clamped by `new`. -/
noncomputable def from_amplitude (amp : ℝ) : ℝ :=
  new (if amp ≤ 0 then MIN_GAIN else 20 * Real.logb 10 amp)

end VolumeDecibels

/-- Audio level meter (`AudioLevel`). -/
structure AudioLevel where
  current_db : ℝ
  peak_db : ℝ

/-- `AudioLevel::new`: both levels at the `-60` floor. -/
def AudioLevel.new : AudioLevel := ⟨-60, -60⟩

/-! ### Buses (`crates/core/src/domain/mixer/bus.rs`) -/

/-- `db_to_gain` from `bus.rs`. -/
noncomputable def db_to_gain (db : ℝ) : ℝ :=
  if db ≤ -60 then 0 else (10 : ℝ) ^ (db / 20)

/-- Predefined bus identifiers `StandardBus`. -/
inductive StandardBus where
  | A1 | A2 | A3 | A4 | A5
deriving DecidableEq

/-- `StandardBus::to_id` (the `Debug` rendering of the variant name). -/
def StandardBus.to_id : StandardBus → String
  | .A1 => "A1"
  | .A2 => "A2"
  | .A3 => "A3"
  | .A4 => "A4"
  | .A5 => "A5"

/-- Audio bus (`Bus`); the `output_device` is an optional device id string. -/
structure Bus where
  id : String
  name : String
  output_device : Option String
  volume_db : ℝ
  muted : Bool

/-- `Bus::new`. -/
def Bus.new (id : String) (name : String) : Bus := ⟨id, name, none, 0, false⟩

/-- `Bus::standard`. -/
def Bus.standard (sb : StandardBus) : Bus := Bus.new sb.to_id sb.to_id

/-- `Bus::gain`: `0` when muted, else `db_to_gain(volume_db)`. -/
noncomputable def Bus.gain (b : Bus) : ℝ :=
  if b.muted then 0 else db_to_gain b.volume_db

/-! ### Channels -/

/-- Virtual audio channel (`MixerChannel`).  The data-only effects-chain
configuration field is omitted: no modelled operation reads it (the live
effects processors are passed separately to `process_with_effects`). -/
structure MixerChannel where
  id : String
  name : String
  volume : ℝ
  muted : Bool
  solo : Bool
  level : AudioLevel
  input_device : Option String

/-- `MixerChannel::new`: unity volume, unmuted, no solo. -/
noncomputable def MixerChannel.new (id : String) (name : String) : MixerChannel :=
  ⟨id, name, VolumeDecibels.new VolumeDecibels.UNITY_GAIN, false, false,
    AudioLevel.new, none⟩

/-- `MixerChannel::is_audible`. -/
def MixerChannel.is_audible (c : MixerChannel) (any_solo : Bool) : Bool :=
  if c.muted then false
  else if any_solo && !c.solo then false
  else true

/-! ### Association-list model of `HashMap` -/

/-- Map lookup (`HashMap::get`): value of the first entry with the key. -/
def lookupA {β : Type} (l : List (String × β)) (k : String) : Option β :=
  (l.find? (fun p => p.1 = k)).map Prod.snd

/-- Map insert (`HashMap::insert`): replace the entry in place, or append. -/
def insertA {β : Type} (l : List (String × β)) (k : String) (v : β) :
    List (String × β) :=
  match l with
  | [] => [(k, v)]
  | (k1, v1) :: rest =>
      if k1 = k then (k, v) :: rest else (k1, v1) :: insertA rest k v

/-- Map removal (`HashMap::remove`): drop the entry with the key. -/
def removeA {β : Type} (l : List (String × β)) (k : String) :
    List (String × β) :=
  match l with
  | [] => []
  | (k1, v) :: rest =>
      if k1 = k then removeA rest k else (k1, v) :: removeA rest k

/-! ### Routing matrix -/

/-- `RoutingMatrix`: the `routes` hash map from (from, to) pairs to enabled
flags, as an association list. -/
abbrev Routing : Type := List ((String × String) × Bool)

/-- `RoutingMatrix::set_route`: upsert the pair. -/
def setRoute (r : Routing) (from_ to_ : String) (enabled : Bool) : Routing :=
  match r with
  | [] => [((from_, to_), enabled)]
  | (k, v) :: rest =>
      if k = (from_, to_) then ((from_, to_), enabled) :: rest
      else (k, v) :: setRoute rest from_ to_ enabled

/-- `RoutingMatrix::is_routed`: lookup defaulting to `false`. -/
def isRouted (r : Routing) (from_ to_ : String) : Bool :=
  ((r.find? (fun p => p.1 = (from_, to_))).map Prod.snd).getD false

/-- `RoutingMatrix::get_outputs`: all enabled destinations of `from_`. -/
def getOutputs (r : Routing) (from_ : String) : List String :=
  (r.filter (fun p => p.1.1 = from_ && p.2)).map (fun p => p.1.2)

/-! ### Errors (`crates/core/src/domain/audio.rs`) -/

/-- `AudioError`. -/
inductive AudioError where
  | DeviceNotFound (msg : String)
  | StreamError (msg : String)
  | InvalidConfiguration (msg : String)
  | OsError (msg : String)
  | UnsupportedConfiguration (msg : String)
deriving DecidableEq

/-- Recognise the invalid-configuration error kind. -/
def AudioError.isInvalidConfiguration : AudioError → Bool
  | .InvalidConfiguration _ => true
  | _ => false

/-- Recognise the not-found error kind. -/
def AudioError.isDeviceNotFound : AudioError → Bool
  | .DeviceNotFound _ => true
  | _ => false

/-! ### Mixer engine -/

/-- `MixerEngine`. -/
structure MixerEngine where
  channels : List (String × MixerChannel)
  routing : Routing
  buses : List Bus
  channel_order : List String
  soloed_channel_id : Option String

/-- `MixerEngine::MIN_BUSES = 2`. -/
def MixerEngine.MIN_BUSES : ℕ := 2

/-- `MixerEngine::MAX_BUSES = 5`. -/
def MixerEngine.MAX_BUSES : ℕ := 5

/-- `MixerEngine::create_default_buses`: output buses A1, A2. -/
def MixerEngine.create_default_buses : List Bus :=
  [Bus.standard .A1, Bus.standard .A2]

/-- `MixerEngine::new`. -/
def MixerEngine.new : MixerEngine :=
  ⟨[], [], MixerEngine.create_default_buses, [], none⟩

/-- The `match next_bus_num` table inside `MixerEngine::add_bus`. -/
def standardBusOfNum : ℕ → Option StandardBus
  | 1 => some .A1
  | 2 => some .A2
  | 3 => some .A3
  | 4 => some .A4
  | 5 => some .A5
  | _ => none

/-- `MixerEngine::add_bus`: fails at `MAX_BUSES`, otherwise appends the next
A-series bus.  The Rust method mutates `self` and returns `Result<BusId>`;
here it returns the result together with the resulting state. -/
def MixerEngine.add_bus (m : MixerEngine) :
    Except AudioError String × MixerEngine :=
  if m.buses.length ≥ MixerEngine.MAX_BUSES then
    (.error (.InvalidConfiguration ("Maximum bus limit reached (5)")), m)
  else
    match standardBusOfNum (m.buses.length + 1) with
    | none => (.error (.InvalidConfiguration ("Invalid bus number")), m)
    | some sb =>
        (.ok sb.to_id, { m with buses := m.buses ++ [Bus.standard sb] })

/-- `MixerEngine::remove_bus`: fails at `MIN_BUSES`, otherwise pops the last
bus and purges every routing entry naming it. -/
def MixerEngine.remove_bus (m : MixerEngine) :
    Except AudioError String × MixerEngine :=
  if m.buses.length ≤ MixerEngine.MIN_BUSES then
    (.error (.InvalidConfiguration ("Minimum bus limit reached (2)")), m)
  else
    match m.buses.getLast? with
    | none => (.error (.InvalidConfiguration ("No bus to remove")), m)
    | some removed =>
        (.ok removed.id,
          { m with
            buses := m.buses.dropLast,
            routing := m.routing.filter
              (fun e => e.1.1 ≠ removed.id && e.1.2 ≠ removed.id) })

/-- `MixerEngine::add_channel`. -/
def MixerEngine.add_channel (m : MixerEngine) (c : MixerChannel) :
    MixerEngine :=
  { m with
    channels := insertA m.channels c.id c,
    channel_order := m.channel_order ++ [c.id] }

/-- `MixerEngine::remove_channel`: on success purge routing entries naming
the channel and drop it from the order cache; not-found error otherwise. -/
def MixerEngine.remove_channel (m : MixerEngine) (id : String) :
    Except AudioError Unit × MixerEngine :=
  if (lookupA m.channels id).isSome then
    (.ok (),
      { m with
        channels := removeA m.channels id,
        routing := m.routing.filter (fun e => e.1.1 ≠ id && e.1.2 ≠ id),
        channel_order := m.channel_order.filter (fun cid => cid ≠ id) })
  else
    (.error (.DeviceNotFound id), m)

/-- `MixerEngine::set_channel_solo_exclusive`.  The true form solos exactly
the named channel (comparing each channel's `id` field); the false form
clears the solo record when it names this channel, then clears the flag on
the channel if present.  Always returns `Ok`. -/
def MixerEngine.set_channel_solo_exclusive (m : MixerEngine)
    (channel_id : String) (solo_state : Bool) :
    Except AudioError Unit × MixerEngine :=
  if solo_state then
    (.ok (),
      { m with
        channels := m.channels.map
          (fun p => (p.1, { p.2 with solo := p.2.id = channel_id })),
        soloed_channel_id := some channel_id })
  else
    let m1 :=
      if m.soloed_channel_id = some channel_id then
        { m with soloed_channel_id := none }
      else m
    (.ok (),
      { m1 with
        channels := m1.channels.map
          (fun p =>
            if p.1 = channel_id then (p.1, { p.2 with solo := false })
            else p) })

/-! ### Frame processing (`MixerEngine::process_with_effects`) -/

/-- In-place accumulation `out[k] += sample[k]·gain` over the zip of the two
buffers: stops at the shorter one, the tail of `out` is untouched. -/
noncomputable def zipAccum (gain : ℝ) : List ℝ → List ℝ → List ℝ
  | out, [] => out
  | [], _ => []
  | o :: out, s :: buf => (o + s * gain) :: zipAccum gain out buf

/-- The `outputs.entry(id).or_insert_with(zeros)` + accumulate step of
`process_with_effects`, on the association-list output map. -/
noncomputable def accumulate (outs : List (String × List ℝ)) (oid : String)
    (gain : ℝ) (buf : List ℝ) : List (String × List ℝ) :=
  match outs with
  | [] => [(oid, zipAccum gain (List.replicate buf.length 0) buf)]
  | (k, v) :: rest =>
      if k = oid then (k, zipAccum gain v buf) :: rest
      else (k, v) :: accumulate rest oid gain buf

/-- Per-input-channel body of the loop in `process_with_effects`.  The
effects processor for a channel, when present, is an arbitrary buffer
transformer (its `&mut [f32]` interface cannot change the length, which the
theorems take as a hypothesis). -/
noncomputable def processChannel (m : MixerEngine) (any_solo : Bool)
    (eff : String → Option (List ℝ → List ℝ))
    (outs : List (String × List ℝ)) (entry : String × List ℝ) :
    List (String × List ℝ) :=
  match lookupA m.channels entry.1 with
  | none => outs
  | some channel =>
      if !channel.is_audible any_solo then outs
      else
        let output_ids := getOutputs m.routing entry.1
        let processed :=
          match eff entry.1 with
          | some h => h entry.2
          | none => entry.2
        let gain := VolumeDecibels.to_amplitude channel.volume
        if channel.muted then outs
        else
          output_ids.foldl (fun o oid => accumulate o oid gain processed) outs

open Classical in
/-- Bus-gain pass at the end of `process_with_effects`: outputs whose id
names a bus are zeroed when the bus gain is `0`, scaled by it otherwise. -/
noncomputable def applyBusGain (m : MixerEngine)
    (outs : List (String × List ℝ)) : List (String × List ℝ) :=
  outs.map (fun p =>
    match m.buses.find? (fun b => b.id = p.1) with
    | none => p
    | some bus =>
        if Bus.gain bus = 0 then (p.1, p.2.map (fun _ => 0))
        else (p.1, p.2.map (fun s => s * Bus.gain bus)))

/-- `MixerEngine::process_with_effects`. -/
noncomputable def MixerEngine.process_with_effects (m : MixerEngine)
    (inputs : List (String × List ℝ))
    (eff : String → Option (List ℝ → List ℝ)) : List (String × List ℝ) :=
  let any_solo := m.channels.any (fun p => p.2.solo)
  applyBusGain m (inputs.foldl (processChannel m any_solo eff) [])

/-- `MixerEngine::process` is `process_with_effects` with no processors. -/
noncomputable def MixerEngine.process (m : MixerEngine)
    (inputs : List (String × List ℝ)) : List (String × List ℝ) :=
  m.process_with_effects inputs (fun _ => none)

/-! ### Lock-free ring buffer (`crates/infra/src/audio/lockfree_buffer.rs`)

The single-producer/single-consumer buffer is modelled sequentially: each
`write`/`read` is one atomic step, which matches any SPSC interleaving since
each side only ever advances its own cursor.  The bit-masked index
`pos & (capacity - 1)` equals `pos % capacity` because the capacity is a
power of two, so the model indexes with `% capacity`. -/

/-- `LockFreeRingBuffer`: sample storage plus the two monotone cursors. -/
structure LockFreeRingBuffer where
  buffer : List ℚ
  write_pos : ℕ
  read_pos : ℕ
  capacity : ℕ
  mask : ℕ

namespace LockFreeRingBuffer

/-- `with_capacity`: round the capacity up to the next power of two (`0`
behaves like `1`, as `usize::next_power_of_two` does). -/
def with_capacity (c : ℕ) : LockFreeRingBuffer :=
  let cap := 2 ^ Nat.clog 2 (max c 1)
  ⟨List.replicate cap 0, 0, 0, cap, cap - 1⟩

/-- `available_write_internal`: one slot is kept empty. -/
def available_write_internal (b : LockFreeRingBuffer)
    (write_pos read_pos : ℕ) : ℕ :=
  if write_pos ≥ read_pos then b.capacity - (write_pos - read_pos) - 1
  else read_pos - write_pos - 1

/-- `available_read_internal`. -/
def available_read_internal (b : LockFreeRingBuffer)
    (read_pos write_pos : ℕ) : ℕ :=
  if write_pos ≥ read_pos then write_pos - read_pos
  else b.capacity - (read_pos - write_pos)

/-- `available_write`. -/
def available_write (b : LockFreeRingBuffer) : ℕ :=
  b.available_write_internal b.write_pos b.read_pos

/-- `available_read`. -/
def available_read (b : LockFreeRingBuffer) : ℕ :=
  b.available_read_internal b.read_pos b.write_pos

/-- The write loop body: store the samples one by one at consecutive masked
positions starting at `p`. -/
def storeSeq (cap : ℕ) : List ℚ → ℕ → List ℚ → List ℚ
  | buf, _, [] => buf
  | buf, p, s :: rest => storeSeq cap (buf.set (p % cap) s) (p + 1) rest

/-- `write`: stores `min(samples.len(), available_write)` samples and
returns the new state with the count actually written. -/
def write (b : LockFreeRingBuffer) (samples : List ℚ) :
    LockFreeRingBuffer × ℕ :=
  let avail := b.available_write_internal b.write_pos b.read_pos
  let to_write := min samples.length avail
  ({ b with
      buffer := storeSeq b.capacity b.buffer b.write_pos (samples.take to_write),
      write_pos := b.write_pos + to_write },
    to_write)

/-- `read` into a destination of length `len`: returns the new state and the
samples actually read (their number is the count the Rust method returns). -/
def read (b : LockFreeRingBuffer) (len : ℕ) :
    LockFreeRingBuffer × List ℚ :=
  let avail := b.available_read_internal b.read_pos b.write_pos
  let to_read := min len avail
  ({ b with read_pos := b.read_pos + to_read },
    (List.range to_read).map
      (fun i => b.buffer.getD ((b.read_pos + i) % b.capacity) 0))

/-- `is_empty`: both cursors coincide. -/
def is_empty (b : LockFreeRingBuffer) : Bool := b.read_pos = b.write_pos

end LockFreeRingBuffer

/-! ### Linear resampler (`crates/infra/src/audio/stream.rs`) -/

/-- `Resampler`: channel count, rate ratio and fractional read position
(`f64` values idealised as exact rationals). -/
structure Resampler where
  channels : ℕ
  ratio : ℚ
  position : ℚ

/-- `Resampler::new`: ratio `1` (bypass) when the rates match, else
`target/source`. -/
def Resampler.new (source_rate target_rate : ℕ) (channels : ℕ) : Resampler :=
  if source_rate = target_rate then ⟨channels, 1, 0⟩
  else ⟨channels, (target_rate : ℚ) / (source_rate : ℚ), 0⟩

/-- One output frame of the interpolation loop: for each channel write
`input[i0] + frac·(input[i1] − input[i0])` at the output index, guarded by
the bounds checks of the source. -/
def interpFrame (channels : ℕ) (input : List ℚ) (input_frames : ℕ)
    (pos : ℚ) (output_frame : ℕ) (out : List ℚ) : List ℚ :=
  (List.range channels).foldl
    (fun acc ch =>
      let i0 := pos.floor.toNat
      let i1 := min (i0 + 1) (input_frames - 1)
      let frac := pos - (i0 : ℚ)
      let idx0 := i0 * channels + ch
      let idx1 := i1 * channels + ch
      let out_idx := output_frame * channels + ch
      if out_idx < acc.length ∧ idx0 < input.length ∧ idx1 < input.length then
        acc.set out_idx
          (input.getD idx0 0 + frac * (input.getD idx1 0 - input.getD idx0 0))
      else acc)
    out

/-- The `while position < input_frames && output_frame < max_output_frames`
loop, by recursion on the remaining output-frame budget
(`max_output_frames − output_frame`). -/
def interpLoop (channels : ℕ) (ratio : ℚ) (input : List ℚ)
    (input_frames : ℕ) :
    ℕ → ℚ → ℕ → List ℚ → List ℚ × ℕ × ℚ
  | 0, pos, output_frame, out => (out, output_frame, pos)
  | rem + 1, pos, output_frame, out =>
      if pos < (input_frames : ℚ) then
        interpLoop channels ratio input input_frames rem (pos + ratio⁻¹)
          (output_frame + 1)
          (interpFrame channels input input_frames pos output_frame out)
      else (out, output_frame, pos)

/-- `Resampler::process`: bypass copy when the ratio is `1`, otherwise the
linear-interpolation loop followed by the position wrap.  Returns the new
state, the output buffer and the count of samples written. -/
def Resampler.process (r : Resampler) (input output : List ℚ) :
    Resampler × List ℚ × ℕ :=
  if r.ratio = 1 then
    let to_copy := min input.length output.length
    (r, input.take to_copy ++ output.drop to_copy, to_copy)
  else
    let input_frames := input.length / r.channels
    let max_output_frames := output.length / r.channels
    let res := interpLoop r.channels r.ratio input input_frames
      max_output_frames r.position 0 output
    let pos1 := res.2.2
    let pos2 := if pos1 ≥ (input_frames : ℚ) then pos1 - input_frames else pos1
    ({ r with position := pos2 }, res.1, res.2.1 * r.channels)

/-! ### Noise gate (`crates/core/src/domain/dsp.rs`) -/

/-- `params::DB_MIN`. -/
def paramsDB_MIN : ℝ := -60

/-- `NoiseGate`: configuration plus per-side runtime state. -/
structure NoiseGate where
  bypass : Bool
  threshold_db : ℝ
  attack_sec : ℝ
  release_sec : ℝ
  hold_sec : ℝ
  envelope_left : ℝ
  envelope_right : ℝ
  gain_left : ℝ
  gain_right : ℝ
  hold_counter_left : ℕ
  hold_counter_right : ℕ
  attack_coeff : ℝ
  release_coeff : ℝ
  use_sidechain : Bool
  sidechain_level : ℝ

namespace NoiseGate

/-- The manual `Clone` implementation: configuration is copied, every piece
of runtime state is reset to zero. -/
def clone (g : NoiseGate) : NoiseGate :=
  { bypass := g.bypass
    threshold_db := g.threshold_db
    attack_sec := g.attack_sec
    release_sec := g.release_sec
    hold_sec := g.hold_sec
    envelope_left := 0
    envelope_right := 0
    gain_left := 0
    gain_right := 0
    hold_counter_left := 0
    hold_counter_right := 0
    attack_coeff := g.attack_coeff
    release_coeff := g.release_coeff
    use_sidechain := g.use_sidechain
    sidechain_level := g.sidechain_level }

/-- `update_coefficients`: `exp(−1/(τ·fs))` for attack and release. -/
noncomputable def update_coefficients (g : NoiseGate) (sample_rate : ℝ) :
    NoiseGate :=
  { g with
    attack_coeff := Real.exp (-1 / (g.attack_sec * sample_rate))
    release_coeff := Real.exp (-1 / (g.release_sec * sample_rate)) }

/-- `NoiseGate::new`: default parameters, zero state, then
`update_coefficients` with the construction sample rate. -/
noncomputable def new (sample_rate : ℕ) : NoiseGate :=
  update_coefficients
    { bypass := false
      threshold_db := -40
      attack_sec := 1 / 1000
      release_sec := 5 / 100
      hold_sec := 1 / 10
      envelope_left := 0
      envelope_right := 0
      gain_left := 0
      gain_right := 0
      hold_counter_left := 0
      hold_counter_right := 0
      attack_coeff := 0
      release_coeff := 0
      use_sidechain := false
      sidechain_level := paramsDB_MIN }
    (sample_rate : ℝ)

/-- The hold-time-to-samples conversion at the top of `NoiseGate::process`:
`(self.hold_sec * 48000.0) as u32` — the sample rate is hard-coded. -/
noncomputable def hold_samples_used (g : NoiseGate) : ℕ :=
  Nat.floor (g.hold_sec * 48000)

open Classical in
/-- The per-sample hold-counter update inside `NoiseGate::process`: seed the
counter with `hold_samples` whenever the envelope exceeds `0.5`, otherwise
count down. -/
noncomputable def holdCounterStep (envelope : ℝ) (counter hold_samples : ℕ) :
    ℕ :=
  if envelope > 1 / 2 then hold_samples
  else if counter > 0 then counter - 1 else counter

end NoiseGate

/-! ### Observation functions used by the specification theorems -/

/-- Disjunction of the solo flags, as computed at the top of
`process_with_effects`. -/
def anySolo (m : MixerEngine) : Bool :=
  m.channels.any (fun p => p.2.solo)

/-- Whether the channel with the given id contributes to the mix: it exists
and `is_audible` holds for it under the current solo disjunction. -/
def audibleInMix (m : MixerEngine) (cid : String) : Bool :=
  match lookupA m.channels cid with
  | some c => c.is_audible (anySolo m)
  | none => false

/-- Apply the optional effects processor of a channel to a buffer. -/
def effApply (eff : String → Option (List ℝ → List ℝ)) (cid : String)
    (buf : List ℝ) : List ℝ :=
  match eff cid with
  | some h => h buf
  | none => buf

/-- Linear gain of a channel (`amplitude(channel.volume)`), `0` for a
missing channel. -/
noncomputable def channelGain (m : MixerEngine) (cid : String) : ℝ :=
  match lookupA m.channels cid with
  | some c => VolumeDecibels.to_amplitude c.volume
  | none => 0

/-- Sample at index `k` of the output buffer for destination `d`; a missing
destination reads as silence. -/
def outputSample (outs : List (String × List ℝ)) (d : String) (k : ℕ) : ℝ :=
  match lookupA outs d with
  | some buf => buf.getD k 0
  | none => 0

/-- The mixing specification: the sample at index `k` of destination `d` is
the sum, over the input channels that are audible and routed to `d`, of the
channel gain times the (effects-processed) input sample. -/
noncomputable def mixedSample (m : MixerEngine)
    (inputs : List (String × List ℝ))
    (eff : String → Option (List ℝ → List ℝ)) (d : String) (k : ℕ) : ℝ :=
  (inputs.map (fun p =>
    if audibleInMix m p.1 ∧ d ∈ getOutputs m.routing p.1
    then channelGain m p.1 * (effApply eff p.1 p.2).getD k 0
    else 0)).sum

/-- Bus-gain factor applied to destination `d` by the final pass of
`process_with_effects`: the gain of the bus named `d`, or `1` when `d` is
not a bus. -/
noncomputable def busFactor (m : MixerEngine) (d : String) : ℝ :=
  match m.buses.find? (fun b => b.id = d) with
  | some bus => Bus.gain bus
  | none => 1

/-- Well-formedness of the channel map: every entry is keyed by the id
stored in the channel, as `add_channel` guarantees. -/
def channelsWellFormed (m : MixerEngine) : Prop :=
  ∀ p ∈ m.channels, p.2.id = p.1

/-! ### Ring-buffer runs -/

/-- One producer or consumer operation on the ring buffer. -/
inductive RingOp where
  | write (samples : List ℚ)
  | read (len : ℕ)

/-- Run a sequence of operations; returns the final buffer together with
the accepted (actually written) sample stream and the consumed (actually
read) sample stream. -/
def runOps : LockFreeRingBuffer → List RingOp →
    LockFreeRingBuffer × List ℚ × List ℚ
  | b, [] => (b, [], [])
  | b, .write s :: rest =>
      let res := b.write s
      let r2 := runOps res.1 rest
      (r2.1, s.take res.2 ++ r2.2.1, r2.2.2)
  | b, .read len :: rest =>
      let res := b.read len
      let r2 := runOps res.1 rest
      (r2.1, r2.2.1, res.2 ++ r2.2.2)

/-- The pending samples of the buffer, oldest first: the circular segment
from the read cursor to the write cursor. -/
def segment (b : LockFreeRingBuffer) : List ℚ :=
  (List.range (b.write_pos - b.read_pos)).map
    (fun i => b.buffer.getD ((b.read_pos + i) % b.capacity) 0)

/-- Structural invariant of a live ring buffer. -/
def RingInv (b : LockFreeRingBuffer) : Prop :=
  0 < b.capacity ∧ b.buffer.length = b.capacity ∧
    b.read_pos ≤ b.write_pos ∧ b.write_pos - b.read_pos < b.capacity

/-! ### Concrete mixer scenarios -/

/-- Three unity-gain channels, all routed to bus A1. -/
noncomputable def demoMixer : MixerEngine :=
  let m :=
    ((MixerEngine.new.add_channel
        (MixerChannel.new ("ch1") ("one"))).add_channel
      (MixerChannel.new ("ch2") ("two"))).add_channel
      (MixerChannel.new ("ch3") ("three"))
  { m with
    routing :=
      setRoute (setRoute (setRoute m.routing ("ch1") ("A1") true)
        ("ch2") ("A1") true) ("ch3") ("A1") true }

/-- One frame of all-ones input on the three demo channels. -/
noncomputable def demoInputs : List (String × List ℝ) :=
  [("ch1", [1]), ("ch2", [1]), ("ch3", [1])]

/-- The demo mixer with channel 2 exclusively soloed. -/
noncomputable def demoMixerSolo : MixerEngine :=
  (demoMixer.set_channel_solo_exclusive ("ch2") true).2

/-- The demo mixer with every channel muted. -/
noncomputable def demoMixerMuted : MixerEngine :=
  { demoMixer with
    channels := demoMixer.channels.map
      (fun p => (p.1, { p.2 with muted := true })) }

/-! ## Theorems -/

/-- Claim C10: cloning a `NoiseGate` preserves all configuration (bypass,
threshold, attack, release, hold, coefficients, sidechain flag and level)
and resets every piece of runtime state (both envelopes, both smoothed
gains, both hold counters) to zero. -/
theorem noiseGate_clone_spec (g : NoiseGate) :
    g.clone.bypass = g.bypass ∧
    g.clone.threshold_db = g.threshold_db ∧
    g.clone.attack_sec = g.attack_sec ∧
    g.clone.release_sec = g.release_sec ∧
    g.clone.hold_sec = g.hold_sec ∧
    g.clone.attack_coeff = g.attack_coeff ∧
    g.clone.release_coeff = g.release_coeff ∧
    g.clone.use_sidechain = g.use_sidechain ∧
    g.clone.sidechain_level = g.sidechain_level ∧
    g.clone.envelope_left = 0 ∧
    g.clone.envelope_right = 0 ∧
    g.clone.gain_left = 0 ∧
    g.clone.gain_right = 0 ∧
    g.clone.hold_counter_left = 0 ∧
    g.clone.hold_counter_right = 0 :=
  ⟨rfl, rfl, rfl, rfl, rfl, rfl, rfl, rfl, rfl, rfl, rfl, rfl, rfl, rfl, rfl⟩

/-- Claim C8 (refuted by the code): a gate constructed at 44100 Hz seeds
its hold counter, when the envelope exceeds `0.5`, with
`hold_sec·48000 = 4800` samples — the hard-coded 48 kHz constant of
`NoiseGate::process` — instead of the `hold_sec·44100 = 4410` samples the
construction sample rate would give. -/
theorem noiseGate_hold_uses_hardcoded_rate :
    NoiseGate.hold_samples_used (NoiseGate.new 44100) = 4800 ∧
    NoiseGate.holdCounterStep 1 0
      (NoiseGate.hold_samples_used (NoiseGate.new 44100)) = 4800 ∧
    (NoiseGate.new 44100).hold_sec * (44100 : ℝ) = 4410 ∧
    (4800 : ℕ) ≠ 4410 := by
  have hs : (NoiseGate.new 44100).hold_sec = 1 / 10 := rfl
  have h1 : NoiseGate.hold_samples_used (NoiseGate.new 44100) = 4800 := by
    unfold NoiseGate.hold_samples_used
    rw [hs]
    norm_num
  refine ⟨h1, ?_, ?_, by norm_num⟩
  · unfold NoiseGate.holdCounterStep
    rw [h1]
    norm_num
  · rw [hs]; norm_num

/-- Claim C9 counterexample: in a mixer holding only channel `a`, calling
`set_channel_solo_exclusive` on the non-existent id `ghost` returns `Ok`,
not a not-found error — refuting the claim that a missing channel id
produces a not-found error. -/
theorem set_solo_exclusive_missing_id_ok :
    lookupA (MixerEngine.new.add_channel
      (MixerChannel.new ("a") ("mic"))).channels ("ghost") = none ∧
    ((MixerEngine.new.add_channel
        (MixerChannel.new ("a") ("mic"))).set_channel_solo_exclusive
      ("ghost") true).1 = Except.ok () := by
  constructor
  · rfl
  · rfl

/-- Claim C9 amended: `set_channel_solo_exclusive` returns `Ok` for every
channel id, whether or not a channel with that id exists. -/
theorem set_solo_exclusive_always_ok (m : MixerEngine) (cid : String)
    (b : Bool) : (m.set_channel_solo_exclusive cid b).1 = Except.ok () := by
  cases b <;> rfl

/-- Unfolding lemma for `lookupA` on a cons cell. -/
theorem lookupA_cons {β : Type} (k1 : String) (v : β)
    (l : List (String × β)) (k : String) :
    lookupA ((k1, v) :: l) k = if k1 = k then some v else lookupA l k := by
  by_cases h : k1 = k <;> simp [lookupA, List.find?_cons, h]

/-- Lookup commutes with a key-preserving value transformation. -/
theorem lookupA_map_keyed {β γ : Type} (f : String → β → γ)
    (l : List (String × β)) (k : String) :
    lookupA (l.map (fun p => (p.1, f p.1 p.2))) k = (lookupA l k).map (f k) := by
  induction l with
  | nil => rfl
  | cons hd tl ih =>
      obtain ⟨k1, v⟩ := hd
      by_cases h : k1 = k
      · subst h
        simp [lookupA_cons]
      · simp [lookupA_cons, h, ih]

/-- After the true form of exclusive solo, every channel's solo flag is
exactly the comparison of its id with the soloed one. -/
theorem solo_true_channels (m : MixerEngine) (cid : String)
    (hwf : channelsWellFormed m) :
    ∀ p ∈ (m.set_channel_solo_exclusive cid true).2.channels,
      p.2.solo = decide (p.1 = cid) := by
  intro p hp
  simp only [MixerEngine.set_channel_solo_exclusive, if_true] at hp
  rcases List.mem_map.1 hp with ⟨q, hq, rfl⟩
  simp [hwf q hq]

/-- Exclusive solo preserves the key/id well-formedness of the channel
map. -/
theorem solo_true_wf (m : MixerEngine) (cid : String)
    (hwf : channelsWellFormed m) :
    channelsWellFormed (m.set_channel_solo_exclusive cid true).2 := by
  intro p hp
  simp only [MixerEngine.set_channel_solo_exclusive, if_true] at hp
  rcases List.mem_map.1 hp with ⟨q, hq, rfl⟩
  exact hwf q hq

/-- The false form of exclusive solo clears the flag on the named
channel. -/
theorem solo_false_lookup_self (l : List (String × MixerChannel))
    (cid : String) (c : MixerChannel) (h : lookupA l cid = some c) :
    lookupA (l.map (fun p =>
        if p.1 = cid then (p.1, { p.2 with solo := false }) else p)) cid
      = some { c with solo := false } := by
  induction l with
  | nil => simp [lookupA] at h
  | cons hd tl ih =>
      obtain ⟨k1, v⟩ := hd
      by_cases hk : k1 = cid
      · subst hk
        rw [lookupA_cons] at h
        simp only [if_pos rfl] at h
        obtain rfl : v = c := by injection h
        simp [lookupA_cons]
      · rw [lookupA_cons, if_neg hk] at h
        simp only [List.map_cons, if_neg hk]
        rw [lookupA_cons, if_neg hk]
        exact ih h

/-- The false form of exclusive solo leaves every other channel entry
untouched. -/
theorem solo_false_lookup_other (l : List (String × MixerChannel))
    (cid k : String) (hk : k ≠ cid) :
    lookupA (l.map (fun p =>
        if p.1 = cid then (p.1, { p.2 with solo := false }) else p)) k
      = lookupA l k := by
  induction l with
  | nil => rfl
  | cons hd tl ih =>
      obtain ⟨k1, v⟩ := hd
      by_cases hc : k1 = cid
      · subst hc
        have hne : k1 ≠ k := fun h => hk h.symm
        simp only [List.map_cons]
        rw [if_pos (by trivial)]
        rw [lookupA_cons, lookupA_cons, if_neg hne, if_neg hne]
        exact ih
      · simp only [List.map_cons]
        rw [if_neg hc]
        rw [lookupA_cons, lookupA_cons]
        by_cases he : k1 = k
        · simp [he]
        · simp [he, ih]

/-- A successful lookup yields a member of the association list, keyed by
the looked-up key. -/
theorem lookupA_mem {β : Type} (l : List (String × β)) (k : String) (v : β)
    (h : lookupA l k = some v) : (k, v) ∈ l := by
  unfold lookupA at h
  cases hfind : l.find? (fun p => p.1 = k) with
  | none => rw [hfind] at h; simp at h
  | some p =>
      rw [hfind] at h
      obtain rfl : p.2 = v := by simpa using h
      have hmem := List.mem_of_find?_eq_some hfind
      have hpred : p.1 = k := by
        have := List.find?_some hfind
        exact of_decide_eq_true this
      have : (k, p.2) = p := by
        rw [← hpred]
      rw [this]
      exact hmem

/-- The channel map after the false form of exclusive solo. -/
theorem solo_false_channels_eq (m : MixerEngine) (cid : String) :
    (m.set_channel_solo_exclusive cid false).2.channels
      = m.channels.map (fun p =>
          if p.1 = cid then (p.1, { p.2 with solo := false }) else p) := by
  by_cases h : m.soloed_channel_id = some cid <;>
    simp [MixerEngine.set_channel_solo_exclusive, h]

/-- The soloed-channel record after the false form of exclusive solo. -/
theorem solo_false_soloed_eq (m : MixerEngine) (cid : String) :
    (m.set_channel_solo_exclusive cid false).2.soloed_channel_id
      = (if m.soloed_channel_id = some cid then none
          else m.soloed_channel_id) := by
  by_cases h : m.soloed_channel_id = some cid <;>
    simp [MixerEngine.set_channel_solo_exclusive, h]

/-- Claim C2: for a channel id present in the mixer,
`set_channel_solo_exclusive(id, true)` puts solo on exactly that channel
and records it as the soloed one; the false form clears solo on the id,
leaves all other channels untouched and clears the soloed record exactly
when it named this id; and soloing A then B leaves solo exactly on B. -/
theorem set_solo_exclusive_spec (m : MixerEngine) (cid : String)
    (hwf : channelsWellFormed m)
    (hmem : (lookupA m.channels cid).isSome) :
    (∀ p ∈ (m.set_channel_solo_exclusive cid true).2.channels,
        p.2.solo = decide (p.1 = cid)) ∧
    (∃ c, lookupA (m.set_channel_solo_exclusive cid true).2.channels cid
        = some c ∧ c.solo = true) ∧
    (m.set_channel_solo_exclusive cid true).2.soloed_channel_id
      = some cid ∧
    (∀ c, lookupA m.channels cid = some c →
        lookupA (m.set_channel_solo_exclusive cid false).2.channels cid
          = some { c with solo := false }) ∧
    (∀ k, k ≠ cid →
        lookupA (m.set_channel_solo_exclusive cid false).2.channels k
          = lookupA m.channels k) ∧
    (m.set_channel_solo_exclusive cid false).2.soloed_channel_id
      = (if m.soloed_channel_id = some cid then none
          else m.soloed_channel_id) ∧
    (∀ B p,
        p ∈ (((m.set_channel_solo_exclusive cid true).2).set_channel_solo_exclusive
            B true).2.channels →
        p.2.solo = decide (p.1 = B)) := by
  refine ⟨solo_true_channels m cid hwf, ?_, rfl, ?_, ?_,
    solo_false_soloed_eq m cid, ?_⟩
  · rcases Option.isSome_iff_exists.1 hmem with ⟨c, hc⟩
    have hid : c.id = cid := hwf (cid, c) (lookupA_mem m.channels cid c hc)
    refine ⟨{ c with solo := decide (c.id = cid) }, ?_, by simp [hid]⟩
    simp only [MixerEngine.set_channel_solo_exclusive, if_true]
    have h2 := lookupA_map_keyed
      (fun _ q => { q with solo := decide (q.id = cid) }) m.channels cid
    simp only [] at h2
    rw [h2, hc]
    rfl
  · intro c hc
    rw [solo_false_channels_eq]
    exact solo_false_lookup_self m.channels cid c hc
  · intro k hk
    rw [solo_false_channels_eq]
    exact solo_false_lookup_other m.channels cid k hk
  · intro B p hp
    exact solo_true_channels _ B (solo_true_wf m cid hwf) p hp

/-- Witness for claim C2, at the three-channel demo mixer with `ch2`. -/
theorem set_solo_exclusive_spec_witness :
    channelsWellFormed demoMixer ∧
    (lookupA demoMixer.channels ("ch2")).isSome = true ∧
    (∀ p ∈ (demoMixer.set_channel_solo_exclusive ("ch2") true).2.channels,
        p.2.solo = decide (p.1 = ("ch2" : String))) := by
  have hwf : channelsWellFormed demoMixer := by
    intro p hp
    simp [demoMixer, MixerEngine.add_channel, MixerEngine.new,
      MixerChannel.new, insertA] at hp
    rcases hp with rfl | rfl | rfl <;> rfl
  have hmem : (lookupA demoMixer.channels ("ch2")).isSome = true := by
    simp [demoMixer, MixerEngine.add_channel, MixerEngine.new,
      MixerChannel.new, insertA, lookupA_cons]
  exact ⟨hwf, hmem,
    (set_solo_exclusive_spec demoMixer ("ch2") hwf hmem).1⟩

/-- Claim C4: `add_bus` appends the next A-series bus (A3, A4, A5 from the
operational counts 2, 3, 4; more generally it succeeds whenever the count
is below 5) and fails with an invalid-configuration error, leaving the
state unchanged, at count 5; `remove_bus` pops the last bus and purges the
routing entries naming it while the count exceeds 2, and fails with an
invalid-configuration error, leaving the state unchanged, at count 2. -/
theorem bus_capacity_spec (m : MixerEngine) :
    (m.buses.length < 5 → ∃ sb,
        m.add_bus = (Except.ok (StandardBus.to_id sb),
          { m with buses := m.buses ++ [Bus.standard sb] })) ∧
    (m.buses.length = 2 → m.add_bus = (Except.ok ("A3"),
        { m with buses := m.buses ++ [Bus.standard .A3] })) ∧
    (m.buses.length = 3 → m.add_bus = (Except.ok ("A4"),
        { m with buses := m.buses ++ [Bus.standard .A4] })) ∧
    (m.buses.length = 4 → m.add_bus = (Except.ok ("A5"),
        { m with buses := m.buses ++ [Bus.standard .A5] })) ∧
    (m.buses.length ≥ 5 → m.add_bus = (Except.error
        (AudioError.InvalidConfiguration ("Maximum bus limit reached (5)")),
        m)) ∧
    (∀ bs b, m.buses = bs ++ [b] → 2 < m.buses.length →
        (m.remove_bus).1 = Except.ok b.id ∧
        (m.remove_bus).2.buses = bs ∧
        (m.remove_bus).2.channels = m.channels ∧
        (m.remove_bus).2.soloed_channel_id = m.soloed_channel_id ∧
        (∀ e, e ∈ (m.remove_bus).2.routing ↔
            (e ∈ m.routing ∧ e.1.1 ≠ b.id ∧ e.1.2 ≠ b.id))) ∧
    (m.buses.length ≤ 2 → m.remove_bus = (Except.error
        (AudioError.InvalidConfiguration ("Minimum bus limit reached (2)")),
        m)) := by
  refine ⟨?_, ?_, ?_, ?_, ?_, ?_, ?_⟩
  · intro h5
    have h1 : (standardBusOfNum (m.buses.length + 1)).isSome := by
      have hall : ∀ n, n < 5 → (standardBusOfNum (n + 1)).isSome := by decide
      exact hall _ h5
    obtain ⟨sb, hsb⟩ := Option.isSome_iff_exists.1 h1
    refine ⟨sb, ?_⟩
    simp only [MixerEngine.add_bus, MixerEngine.MAX_BUSES]
    rw [if_neg (by omega), hsb]
  · intro h
    simp [MixerEngine.add_bus, MixerEngine.MAX_BUSES, h, standardBusOfNum,
      StandardBus.to_id]
  · intro h
    simp [MixerEngine.add_bus, MixerEngine.MAX_BUSES, h, standardBusOfNum,
      StandardBus.to_id]
  · intro h
    simp [MixerEngine.add_bus, MixerEngine.MAX_BUSES, h, standardBusOfNum,
      StandardBus.to_id]
  · intro h
    simp only [MixerEngine.add_bus, MixerEngine.MAX_BUSES]
    rw [if_pos h]
  · intro bs b heq hlen
    have hcond : ¬ (m.buses.length ≤ MixerEngine.MIN_BUSES) := by
      simp only [MixerEngine.MIN_BUSES]; omega
    have hlast : m.buses.getLast? = some b := by
      rw [heq]; simp
    have hdrop : m.buses.dropLast = bs := by
      rw [heq]; simp
    have hres : m.remove_bus = (Except.ok b.id,
        { m with
          buses := bs,
          routing := m.routing.filter
            (fun e => e.1.1 ≠ b.id && e.1.2 ≠ b.id) }) := by
      simp only [MixerEngine.remove_bus, if_neg hcond, hlast, hdrop]
    refine ⟨by rw [hres], by rw [hres], by rw [hres], by rw [hres], ?_⟩
    intro e
    rw [hres]
    simp [List.mem_filter]
  · intro h
    simp only [MixerEngine.remove_bus, MixerEngine.MIN_BUSES]
    rw [if_pos h]

/-- Witness for claim C4: from the default two-bus mixer, `add_bus` yields
A3 and `remove_bus` fails; from the three-bus state, `remove_bus` pops
A3. -/
theorem bus_capacity_spec_witness :
    MixerEngine.new.add_bus = (Except.ok ("A3"),
      { MixerEngine.new with
        buses := MixerEngine.new.buses ++ [Bus.standard .A3] }) ∧
    MixerEngine.new.remove_bus = (Except.error
      (AudioError.InvalidConfiguration ("Minimum bus limit reached (2)")),
      MixerEngine.new) ∧
    ((MixerEngine.new.add_bus).2.remove_bus).1
      = Except.ok (Bus.standard StandardBus.A3).id := by
  refine ⟨(bus_capacity_spec MixerEngine.new).2.1 rfl,
    (bus_capacity_spec MixerEngine.new).2.2.2.2.2.2 (by decide), ?_⟩
  have h3 : (MixerEngine.new.add_bus).2.buses
      = MixerEngine.new.buses ++ [Bus.standard .A3] := by
    rw [(bus_capacity_spec MixerEngine.new).2.1 rfl]
  exact ((bus_capacity_spec (MixerEngine.new.add_bus).2).2.2.2.2.2.1
    MixerEngine.new.buses (Bus.standard .A3) h3 (by rw [h3]; decide)).1

/-- Lookup after `removeA` of the same key finds nothing. -/
theorem lookupA_removeA_self {β : Type} (l : List (String × β))
    (k : String) : lookupA (removeA l k) k = none := by
  induction l with
  | nil => rfl
  | cons hd tl ih =>
      obtain ⟨k1, v⟩ := hd
      by_cases h : k1 = k
      · simpa [removeA, h] using ih
      · simp only [removeA, if_neg h]
        rw [lookupA_cons, if_neg h]
        exact ih

/-- Lookup after `removeA` of another key is unchanged. -/
theorem lookupA_removeA_other {β : Type} (l : List (String × β))
    (k k' : String) (hk : k' ≠ k) :
    lookupA (removeA l k) k' = lookupA l k' := by
  induction l with
  | nil => rfl
  | cons hd tl ih =>
      obtain ⟨k1, v⟩ := hd
      by_cases h : k1 = k
      · subst h
        have hne : k1 ≠ k' := fun he => hk he.symm
        simp only [removeA, if_pos rfl]
        rw [lookupA_cons, if_neg hne]
        exact ih
      · simp only [removeA, if_neg h]
        rw [lookupA_cons, lookupA_cons]
        by_cases he : k1 = k'
        · simp [he]
        · simp [he, ih]

/-- Claim C5: `remove_channel` on an existing channel removes exactly that
channel together with every routing entry naming it as source or
destination, leaving other channels, the other routes, the buses and the
solo record unchanged; on a missing id it returns a not-found error and
changes nothing. -/
theorem remove_channel_spec (m : MixerEngine) (id : String) :
    ((lookupA m.channels id).isSome →
        (m.remove_channel id).1 = Except.ok () ∧
        lookupA (m.remove_channel id).2.channels id = none ∧
        (∀ k, k ≠ id → lookupA (m.remove_channel id).2.channels k
            = lookupA m.channels k) ∧
        (∀ e, e ∈ (m.remove_channel id).2.routing ↔
            (e ∈ m.routing ∧ e.1.1 ≠ id ∧ e.1.2 ≠ id)) ∧
        (m.remove_channel id).2.buses = m.buses ∧
        (m.remove_channel id).2.soloed_channel_id = m.soloed_channel_id) ∧
    ((lookupA m.channels id).isNone →
        m.remove_channel id = (Except.error (AudioError.DeviceNotFound id),
          m)) := by
  constructor
  · intro hs
    have hres : m.remove_channel id = (Except.ok (),
        { m with
          channels := removeA m.channels id,
          routing := m.routing.filter
            (fun e => e.1.1 ≠ id && e.1.2 ≠ id),
          channel_order := m.channel_order.filter (fun cid => cid ≠ id) }) := by
      simp only [MixerEngine.remove_channel, if_pos hs]
    refine ⟨by rw [hres], ?_, ?_, ?_, by rw [hres], by rw [hres]⟩
    · rw [hres]
      exact lookupA_removeA_self m.channels id
    · intro k hk
      rw [hres]
      exact lookupA_removeA_other m.channels id k hk
    · intro e
      rw [hres]
      simp [List.mem_filter]
  · intro hn
    have hs : ¬ ((lookupA m.channels id).isSome = true) := by
      simp only [Option.isNone_iff_eq_none] at hn
      simp [hn]
    simp only [MixerEngine.remove_channel, if_neg hs]

/-- Witness for claim C5: removing `ch2` from the demo mixer succeeds and
empties its lookup; removing a ghost id fails without mutation. -/
theorem remove_channel_spec_witness :
    ((lookupA demoMixer.channels ("ch2")).isSome = true ∧
      (demoMixer.remove_channel ("ch2")).1 = Except.ok () ∧
      lookupA (demoMixer.remove_channel ("ch2")).2.channels ("ch2")
        = none) ∧
    ((lookupA demoMixer.channels ("ghost")).isNone = true ∧
      demoMixer.remove_channel ("ghost")
        = (Except.error (AudioError.DeviceNotFound ("ghost")), demoMixer)) := by
  have hmem : (lookupA demoMixer.channels ("ch2")).isSome = true := by
    simp [demoMixer, MixerEngine.add_channel, MixerEngine.new,
      MixerChannel.new, insertA, lookupA_cons]
  have hghost : (lookupA demoMixer.channels ("ghost")).isNone = true := by
    simp [demoMixer, MixerEngine.add_channel, MixerEngine.new,
      MixerChannel.new, insertA, lookupA_cons, lookupA]
  refine ⟨⟨hmem, ?_, ?_⟩, ⟨hghost, ?_⟩⟩
  · exact ((remove_channel_spec demoMixer ("ch2")).1 hmem).1
  · exact ((remove_channel_spec demoMixer ("ch2")).1 hmem).2.1
  · exact (remove_channel_spec demoMixer ("ghost")).2 hghost

/-- Numerical bound: `10^(3/10) ≤ 2` (indeed `10^3 ≤ 2^10`). -/
theorem rpow_three_tenths_le_two : (10 : ℝ) ^ ((3 : ℝ) / 10) ≤ 2 := by
  have key : ((10 : ℝ) ^ ((3 : ℝ) / 10)) ^ (10 : ℕ) ≤ (2 : ℝ) ^ (10 : ℕ) := by
    have h1 : ((10 : ℝ) ^ ((3 : ℝ) / 10)) ^ (10 : ℕ) = (10 : ℝ) ^ (3 : ℝ) := by
      rw [← Real.rpow_natCast ((10 : ℝ) ^ ((3 : ℝ) / 10)) 10,
        ← Real.rpow_mul (by norm_num)]
      norm_num
    have h2 : (10 : ℝ) ^ (3 : ℝ) = 1000 := by
      rw [show (3 : ℝ) = ((3 : ℕ) : ℝ) by norm_num, Real.rpow_natCast]
      norm_num
    rw [h1, h2]
    norm_num
  exact le_of_pow_le_pow_left₀ (by norm_num) (by norm_num) key

/-- Claim C6, amended: the decibel-amplitude conversions follow the stated
formulas, and the round trip recovers the amplitude exactly (hence within
any positive tolerance) on the amplitudes whose decibel value is strictly
inside the clamp range, i.e. `10^(-3) < amp ≤ 10^(3/10)`. -/
theorem volume_roundtrip_spec :
    (∀ db : ℝ, VolumeDecibels.MIN_GAIN < db →
        VolumeDecibels.to_amplitude db = (10 : ℝ) ^ (db / 20)) ∧
    VolumeDecibels.to_amplitude VolumeDecibels.MIN_GAIN = 0 ∧
    (∀ amp : ℝ, amp ≤ 0 →
        VolumeDecibels.from_amplitude amp = VolumeDecibels.MIN_GAIN) ∧
    (∀ amp : ℝ, 0 < amp → VolumeDecibels.from_amplitude amp
        = clampR (20 * Real.logb 10 amp) (-60) 6) ∧
    (∀ amp : ℝ, (10 : ℝ) ^ (-(3 : ℝ)) < amp →
        amp ≤ (10 : ℝ) ^ ((3 : ℝ) / 10) →
        VolumeDecibels.to_amplitude (VolumeDecibels.from_amplitude amp)
          = amp) := by
  have h10 : (1 : ℝ) < 10 := by norm_num
  refine ⟨?_, ?_, ?_, ?_, ?_⟩
  · intro db hdb
    unfold VolumeDecibels.to_amplitude
    rw [if_neg (not_le.2 hdb)]
  · unfold VolumeDecibels.to_amplitude
    rw [if_pos le_rfl]
  · intro amp hamp
    unfold VolumeDecibels.from_amplitude
    rw [if_pos hamp]
    unfold VolumeDecibels.new clampR VolumeDecibels.MIN_GAIN
      VolumeDecibels.MAX_GAIN
    norm_num
  · intro amp hamp
    unfold VolumeDecibels.from_amplitude
    rw [if_neg (not_le.2 hamp)]
    rfl
  · intro amp h1 h2
    have hamp : 0 < amp :=
      lt_trans (Real.rpow_pos_of_pos (by norm_num) _) h1
    have hfa : VolumeDecibels.from_amplitude amp
        = VolumeDecibels.new (20 * Real.logb 10 amp) := by
      unfold VolumeDecibels.from_amplitude
      rw [if_neg (not_le.2 hamp)]
    have hlow : (-3 : ℝ) < Real.logb 10 amp := by
      have hmono := Real.logb_lt_logb h10
        (Real.rpow_pos_of_pos (by norm_num) (-(3 : ℝ))) h1
      rwa [Real.logb_rpow (by norm_num) (by norm_num)] at hmono
    have hhigh : Real.logb 10 amp ≤ 3 / 10 := by
      have hmono := Real.logb_le_logb_of_le h10 hamp h2
      rwa [Real.logb_rpow (by norm_num) (by norm_num)] at hmono
    have hx1 : (-60 : ℝ) < 20 * Real.logb 10 amp := by linarith
    have hx2 : 20 * Real.logb 10 amp ≤ 6 := by linarith
    have hnew : VolumeDecibels.new (20 * Real.logb 10 amp)
        = 20 * Real.logb 10 amp := by
      unfold VolumeDecibels.new clampR VolumeDecibels.MIN_GAIN
        VolumeDecibels.MAX_GAIN
      rw [min_eq_left hx2, max_eq_right (le_of_lt hx1)]
    have hta : VolumeDecibels.to_amplitude (20 * Real.logb 10 amp)
        = (10 : ℝ) ^ ((20 * Real.logb 10 amp) / 20) := by
      unfold VolumeDecibels.to_amplitude VolumeDecibels.MIN_GAIN
      rw [if_neg (not_le.2 hx1)]
    rw [hfa, hnew, hta, show (20 * Real.logb 10 amp) / 20
      = Real.logb 10 amp by ring]
    exact Real.rpow_logb (by norm_num) (by norm_num) hamp

/-- Claim C6 counterexample: the amplitude `4` is positive (above
`amplitude(−60) = 0`), yet the round trip returns `10^(3/10) ≤ 2`, missing
`4` by far more than the claimed 1e−2 relative error — the claim fails for
amplitudes above the `+6 dB` clamp. -/
theorem volume_roundtrip_fails_at_four :
    VolumeDecibels.to_amplitude VolumeDecibels.MIN_GAIN = 0 ∧
    (0 : ℝ) < 4 ∧
    |VolumeDecibels.to_amplitude (VolumeDecibels.from_amplitude 4) - 4|
      > (1 / 100) * 4 := by
  have h10 : (1 : ℝ) < 10 := by norm_num
  refine ⟨by unfold VolumeDecibels.to_amplitude; rw [if_pos le_rfl],
    by norm_num, ?_⟩
  have hfa : VolumeDecibels.from_amplitude 4
      = VolumeDecibels.new (20 * Real.logb 10 (4 : ℝ)) := by
    unfold VolumeDecibels.from_amplitude
    rw [if_neg (by norm_num)]
  have hlog : (3 : ℝ) / 10 ≤ Real.logb 10 (4 : ℝ) := by
    rw [Real.le_logb_iff_rpow_le h10 (by norm_num : (0 : ℝ) < 4)]
    exact le_trans rpow_three_tenths_le_two (by norm_num)
  have hsix : (6 : ℝ) ≤ 20 * Real.logb 10 (4 : ℝ) := by linarith
  have hnew : VolumeDecibels.new (20 * Real.logb 10 (4 : ℝ)) = 6 := by
    unfold VolumeDecibels.new clampR VolumeDecibels.MIN_GAIN
      VolumeDecibels.MAX_GAIN
    rw [min_eq_right hsix, max_eq_right (by norm_num : (-60 : ℝ) ≤ 6)]
  have hta : VolumeDecibels.to_amplitude (6 : ℝ)
      = (10 : ℝ) ^ ((3 : ℝ) / 10) := by
    unfold VolumeDecibels.to_amplitude VolumeDecibels.MIN_GAIN
    rw [if_neg (by norm_num)]
    norm_num
  rw [hfa, hnew, hta]
  have hle := rpow_three_tenths_le_two
  rw [abs_of_neg (by linarith)]
  linarith

/-- Witness for claim C6 (amended), at amplitude `1`: the bounds hold and
the round trip through the decibel domain returns exactly `1`. -/
theorem volume_roundtrip_spec_witness :
    (10 : ℝ) ^ (-(3 : ℝ)) < 1 ∧ (1 : ℝ) ≤ (10 : ℝ) ^ ((3 : ℝ) / 10) ∧
    VolumeDecibels.to_amplitude (VolumeDecibels.from_amplitude 1) = 1 := by
  have h1 : (10 : ℝ) ^ (-(3 : ℝ)) < 1 :=
    Real.rpow_lt_one_of_one_lt_of_neg (by norm_num) (by norm_num)
  have h2 : (1 : ℝ) ≤ (10 : ℝ) ^ ((3 : ℝ) / 10) :=
    Real.one_le_rpow (by norm_num) (by norm_num)
  exact ⟨h1, h2, volume_roundtrip_spec.2.2.2.2 1 h1 h2⟩

/-- Closed form of the interpolation loop's output-frame count: the loop
advances the position by `ratio⁻¹` per frame, so it produces
`min budget ⌈(input_frames − pos)/ratio⁻¹⌉` frames. -/
theorem interpLoop_count (channels : ℕ) (ratio : ℚ) (input : List ℚ)
    (input_frames : ℕ) (hq : 0 < ratio⁻¹) :
    ∀ (rem : ℕ) (pos : ℚ) (oframe : ℕ) (out : List ℚ),
      (interpLoop channels ratio input input_frames rem pos oframe out).2.1
        = oframe + min rem
            (Nat.ceil (((input_frames : ℚ) - pos) / ratio⁻¹)) := by
  intro rem
  induction rem with
  | zero =>
      intro pos oframe out
      simp [interpLoop]
  | succ n ih =>
      intro pos oframe out
      by_cases h : pos < (input_frames : ℚ)
      · have hx : 0 < ((input_frames : ℚ) - pos) / ratio⁻¹ :=
          div_pos (by linarith) hq
        simp only [interpLoop, if_pos h]
        rw [ih]
        have harg : ((input_frames : ℚ) - (pos + ratio⁻¹)) / ratio⁻¹
            = ((input_frames : ℚ) - pos) / ratio⁻¹ - 1 := by
          rw [show (input_frames : ℚ) - (pos + ratio⁻¹)
            = ((input_frames : ℚ) - pos) - ratio⁻¹ by ring, sub_div,
            div_self (ne_of_gt hq)]
        rw [harg]
        set x := ((input_frames : ℚ) - pos) / ratio⁻¹ with hxdef
        by_cases hx1 : x ≤ 1
        · have hc1 : Nat.ceil x = 1 := by
            have hle : Nat.ceil x ≤ 1 := Nat.ceil_le.2 (by exact_mod_cast hx1)
            have hp : 0 < Nat.ceil x := Nat.ceil_pos.2 hx
            omega
          have hc0 : Nat.ceil (x - 1) = 0 := Nat.ceil_eq_zero.2 (by linarith)
          rw [hc1, hc0]
          omega
        · push_neg at hx1
          have hsucc : Nat.ceil x = Nat.ceil (x - 1) + 1 := by
            have h0 : (0 : ℚ) ≤ x - 1 := by linarith
            calc Nat.ceil x = Nat.ceil ((x - 1) + 1) := by
                  rw [sub_add_cancel]
              _ = Nat.ceil (x - 1) + 1 := Nat.ceil_add_one h0
          rw [hsucc]
          omega
      · push_neg at h
        have h0 : Nat.ceil (((input_frames : ℚ) - pos) / ratio⁻¹) = 0 :=
          Nat.ceil_eq_zero.2
            (div_nonpos_of_nonpos_of_nonneg (by linarith) (le_of_lt hq))
        simp only [interpLoop, if_neg (not_lt.2 h)]
        rw [h0]
        simp

/-- Claim C7: with equal source and target rates the resampler's `process`
copies the input into the output up to the shorter length, returns that
count and leaves its state unchanged; with source 44100 and target 48000,
512 input frames from position 0 produce 558 output samples on one
channel — 558 frames, within the specified 557 ± 1. -/
theorem resampler_process_spec :
    (∀ (s ch : ℕ) (input output : List ℚ),
        ((Resampler.new s s ch).process input output).1 = Resampler.new s s ch ∧
        ((Resampler.new s s ch).process input output).2.2
          = min input.length output.length ∧
        ((Resampler.new s s ch).process input output).2.1.length
          = output.length ∧
        (∀ i, i < min input.length output.length →
          ((Resampler.new s s ch).process input output).2.1.getD i 0
            = input.getD i 0) ∧
        (∀ i, min input.length output.length ≤ i →
          ((Resampler.new s s ch).process input output).2.1.getD i 0
            = output.getD i 0)) ∧
    (((Resampler.new 44100 48000 1).process (List.replicate 512 0)
        (List.replicate 600 0)).2.2 = 558 ∧
      556 ≤ ((Resampler.new 44100 48000 1).process (List.replicate 512 0)
        (List.replicate 600 0)).2.2 ∧
      ((Resampler.new 44100 48000 1).process (List.replicate 512 0)
        (List.replicate 600 0)).2.2 ≤ 558) := by
  constructor
  · intro s ch input output
    have hr : (Resampler.new s s ch).ratio = 1 := by
      simp [Resampler.new]
    have hproc : (Resampler.new s s ch).process input output
        = (Resampler.new s s ch,
            input.take (min input.length output.length)
              ++ output.drop (min input.length output.length),
            min input.length output.length) := by
      simp [Resampler.process, hr]
    rw [hproc]
    have hnle : min input.length output.length ≤ input.length :=
      min_le_left _ _
    have hnler : min input.length output.length ≤ output.length :=
      min_le_right _ _
    have hlt : (input.take (min input.length output.length)).length
        = min input.length output.length := by
      simp [List.length_take, Nat.min_eq_left hnle]
    refine ⟨rfl, rfl, ?_, ?_, ?_⟩
    · simp only [List.length_append, hlt, List.length_drop]
      omega
    · intro i hi
      rw [List.getD_append _ _ _ _ (by rw [hlt]; exact hi)]
      simp [List.getD_eq_getElem?_getD, List.getElem?_take, hi,
        List.getElem?_eq_getElem (lt_of_lt_of_le hi hnle)]
    · intro i hi
      rw [List.getD_append_right _ _ _ _ (by rw [hlt]; exact hi)]
      rw [hlt]
      simp only [List.getD_eq_getElem?_getD, List.getElem?_drop]
      congr 2
      omega
  · have hne : (44100 : ℕ) ≠ 48000 := by norm_num
    have hrat : (Resampler.new 44100 48000 1).ratio = (48000 : ℚ) / 44100 := by
      simp [Resampler.new, hne]
    have hrne : ¬ ((Resampler.new 44100 48000 1).ratio = 1) := by
      rw [hrat]; norm_num
    have hpos : (Resampler.new 44100 48000 1).position = 0 := by
      simp [Resampler.new, hne]
    have hch : (Resampler.new 44100 48000 1).channels = 1 := by
      simp [Resampler.new, hne]
    have hq : 0 < ((Resampler.new 44100 48000 1).ratio)⁻¹ := by
      rw [hrat]; norm_num
    have hcount : ((Resampler.new 44100 48000 1).process
        (List.replicate 512 0) (List.replicate 600 0)).2.2 = 558 := by
      simp only [Resampler.process, if_neg hrne, hch, hpos,
        List.length_replicate]
      rw [interpLoop_count 1 (Resampler.new 44100 48000 1).ratio
        (List.replicate 512 0) (512 / 1) hq 600 0 0 (List.replicate 600 0)]
      rw [hrat]
      have hinv : (((48000 : ℚ) / 44100)⁻¹) = 147 / 160 := by norm_num
      rw [hinv]
      have hdiv : (((512 / 1 : ℕ) : ℚ) - 0) / ((147 : ℚ) / 160)
          = 81920 / 147 := by norm_num
      rw [hdiv]
      have hceil : Nat.ceil ((81920 : ℚ) / 147) = 558 := by
        rw [Nat.ceil_eq_iff (by norm_num)]
        norm_num
      rw [hceil]
      norm_num
    exact ⟨hcount, by rw [hcount]; omega, by rw [hcount]⟩

/-- Witness for claim C7, bypass side at concrete buffers: copying
`[1, 2, 3]` into a length-4 output returns count 3, keeps the copied
prefix and preserves the output's tail. -/
theorem resampler_process_spec_witness :
    ((Resampler.new 48000 48000 2).process [1, 2, 3] [5, 6, 7, 8]).2.2 = 3 ∧
    ((Resampler.new 48000 48000 2).process [1, 2, 3] [5, 6, 7, 8]).2.1.getD 0 0
      = (1 : ℚ) ∧
    ((Resampler.new 48000 48000 2).process [1, 2, 3] [5, 6, 7, 8]).2.1.getD 3 0
      = (8 : ℚ) := by
  have h := resampler_process_spec.1 48000 2 [1, 2, 3] [5, 6, 7, 8]
  refine ⟨h.2.1, ?_, ?_⟩
  · rw [h.2.2.2.1 0 (by norm_num)]
    rfl
  · rw [h.2.2.2.2 3 (by norm_num)]
    rfl

/-- The write loop does not change the stored length. -/
theorem storeSeq_length (cap : ℕ) :
    ∀ (l : List ℚ) (p : ℕ) (buf : List ℚ),
      (LockFreeRingBuffer.storeSeq cap buf p l).length = buf.length := by
  intro l
  induction l with
  | nil => intro p buf; rfl
  | cons s rest ih =>
      intro p buf
      simp only [LockFreeRingBuffer.storeSeq]
      rw [ih]
      simp

/-- A slot hit by none of the writes keeps its previous sample. -/
theorem storeSeq_getD_untouched (cap : ℕ) :
    ∀ (l : List ℚ) (p : ℕ) (buf : List ℚ) (q : ℕ),
      (∀ i, i < l.length → (p + i) % cap ≠ q) →
      (LockFreeRingBuffer.storeSeq cap buf p l).getD q 0 = buf.getD q 0 := by
  intro l
  induction l with
  | nil => intro p buf q _; rfl
  | cons s rest ih =>
      intro p buf q h
      simp only [LockFreeRingBuffer.storeSeq]
      rw [ih (p + 1) (buf.set (p % cap) s) q ?hrest]
      case hrest =>
        intro i hi
        have := h (i + 1) (by simpa using Nat.succ_lt_succ hi)
        rwa [show p + (i + 1) = p + 1 + i by ring] at this
      have hne : p % cap ≠ q := by
        have := h 0 (by simp)
        simpa using this
      simp [List.getD_eq_getElem?_getD, List.getElem?_set_ne hne]

/-- When at most `cap` samples are written, the write of index `i` lands at
slot `(p+i) % cap` and is not overwritten. -/
theorem storeSeq_getD_hit (cap : ℕ) (hcap : 0 < cap) :
    ∀ (l : List ℚ) (p : ℕ) (buf : List ℚ) (i : ℕ),
      i < l.length → l.length ≤ cap → buf.length = cap →
      (LockFreeRingBuffer.storeSeq cap buf p l).getD ((p + i) % cap) 0
        = l.getD i 0 := by
  intro l
  induction l with
  | nil =>
      intro p buf i hi
      exact absurd hi (by simp)
  | cons s rest ih =>
      intro p buf i hi hlen hbuf
      simp only [LockFreeRingBuffer.storeSeq]
      cases i with
      | zero =>
          rw [show p + 0 = p by ring]
          rw [storeSeq_getD_untouched cap rest (p + 1)
            (buf.set (p % cap) s) (p % cap) ?hne]
          case hne =>
            intro j hj heq
            have hdvd : cap ∣ (p + 1 + j) - p :=
              (Nat.modEq_iff_dvd' (by omega)).1 heq.symm
            rw [show (p + 1 + j) - p = 1 + j by omega] at hdvd
            have hle := Nat.le_of_dvd (by omega) hdvd
            have : rest.length + 1 ≤ cap := by simpa using hlen
            omega
          have hplt : p % cap < buf.length := by
            rw [hbuf]; exact Nat.mod_lt p hcap
          simp [List.getD_eq_getElem?_getD, List.getElem?_set_self, hplt]
      | succ j =>
          rw [show p + (j + 1) = (p + 1) + j by ring]
          rw [ih (p + 1) (buf.set (p % cap) s) j
            (by simpa using Nat.lt_of_succ_lt_succ hi)
            (by simp at hlen; omega) (by simp [hbuf])]
          rfl

/-- Length of the pending segment. -/
theorem segment_length (b : LockFreeRingBuffer) :
    (segment b).length = b.write_pos - b.read_pos := by
  simp [segment]

/-- Elements of the pending segment. -/
theorem segment_getElem (b : LockFreeRingBuffer) (i : ℕ)
    (h : i < (segment b).length) :
    (segment b)[i] = b.buffer.getD ((b.read_pos + i) % b.capacity) 0 := by
  simp [segment]

/-- Behaviour of one `write`: the invariant is preserved, the count is
`min(len, available_write)` and the accepted prefix is appended to the
pending segment. -/
theorem write_spec (b : LockFreeRingBuffer) (hInv : RingInv b)
    (s : List ℚ) :
    RingInv (b.write s).1 ∧
    (b.write s).2 = min s.length b.available_write ∧
    segment (b.write s).1 = segment b ++ s.take ((b.write s).2) := by
  obtain ⟨hcap, hbuf, hrw, hlt⟩ := hInv
  have havail : b.available_write_internal b.write_pos b.read_pos
      = b.capacity - (b.write_pos - b.read_pos) - 1 := by
    unfold LockFreeRingBuffer.available_write_internal
    rw [if_pos hrw]
  have hnle : min s.length (b.available_write_internal b.write_pos b.read_pos)
      ≤ b.capacity - (b.write_pos - b.read_pos) - 1 := by
    rw [← havail]; exact min_le_right _ _
  have hw1 : (b.write s).1 = { b with
      buffer := LockFreeRingBuffer.storeSeq b.capacity b.buffer b.write_pos
        (s.take (min s.length
          (b.available_write_internal b.write_pos b.read_pos))),
      write_pos := b.write_pos
        + min s.length (b.available_write_internal b.write_pos b.read_pos) } :=
    rfl
  have hw2 : (b.write s).2
      = min s.length (b.available_write_internal b.write_pos b.read_pos) :=
    rfl
  set n := min s.length (b.available_write_internal b.write_pos b.read_pos)
    with hn
  have hnlen : n ≤ s.length := min_le_left _ _
  have htakelen : (s.take n).length = n := by
    simp [List.length_take, Nat.min_eq_left hnlen]
  refine ⟨⟨hcap, ?_, by rw [hw1]; simp only; omega, ?_⟩, rfl, ?_⟩
  · rw [hw1]
    simp only
    rw [storeSeq_length]
    exact hbuf
  · rw [hw1]
    simp only
    omega
  · rw [hw2]
    apply List.ext_getElem
    · rw [segment_length, hw1]
      simp only [List.length_append, segment_length, htakelen]
      omega
    · intro i h1 h2
      rw [segment_getElem _ i h1]
      rw [hw1]
      simp only
      by_cases hcase : i < b.write_pos - b.read_pos
      · rw [storeSeq_getD_untouched b.capacity (s.take n) b.write_pos
          b.buffer ((b.read_pos + i) % b.capacity) ?hunt]
        case hunt =>
          intro t ht heq
          rw [htakelen] at ht
          have hdvd : b.capacity ∣ (b.write_pos + t) - (b.read_pos + i) :=
            (Nat.modEq_iff_dvd' (by omega)).1 heq.symm
          have hD1 : 0 < (b.write_pos + t) - (b.read_pos + i) := by omega
          have hD2 : (b.write_pos + t) - (b.read_pos + i) < b.capacity := by
            omega
          have := Nat.le_of_dvd hD1 hdvd
          omega
        rw [List.getElem_append_left (by rw [segment_length]; exact hcase)]
        rw [segment_getElem _ i (by rw [segment_length]; exact hcase)]
      · push_neg at hcase
        rw [List.getElem_append_right (by rw [segment_length]; exact hcase)]
        have hidx : b.read_pos + i
            = b.write_pos + (i - (b.write_pos - b.read_pos)) := by omega
        rw [hidx]
        have hib : i < (b.write_pos - b.read_pos) + n := by
          have hx := h1
          rw [segment_length, hw1] at hx
          dsimp only at hx
          omega
        rw [storeSeq_getD_hit b.capacity hcap (s.take n) b.write_pos b.buffer
          (i - (b.write_pos - b.read_pos)) (by rw [htakelen]; omega)
          (by omega) hbuf]
        have hti : i - (b.write_pos - b.read_pos) < (s.take n).length := by
          rw [htakelen]
          omega
        simp [List.getD_eq_getElem?_getD, List.getElem?_eq_getElem hti,
          segment_length]

/-- Behaviour of one `read`: the invariant is preserved, the returned
samples are the first `min(len, available_read)` pending samples, and they
are removed from the pending segment. -/
theorem read_spec (b : LockFreeRingBuffer) (hInv : RingInv b) (len : ℕ) :
    RingInv (b.read len).1 ∧
    ((b.read len).2).length = min len b.available_read ∧
    (b.read len).2 = (segment b).take (min len b.available_read) ∧
    segment (b.read len).1 = (segment b).drop (min len b.available_read) := by
  obtain ⟨hcap, hbuf, hrw, hlt⟩ := hInv
  have havail : b.available_read_internal b.read_pos b.write_pos
      = b.write_pos - b.read_pos := by
    unfold LockFreeRingBuffer.available_read_internal
    rw [if_pos hrw]
  have haread : b.available_read = b.write_pos - b.read_pos := havail
  have hr1 : (b.read len).1 = { b with
      read_pos := b.read_pos
        + min len (b.available_read_internal b.read_pos b.write_pos) } := rfl
  have hr2 : (b.read len).2
      = (List.range (min len (b.available_read_internal b.read_pos
          b.write_pos))).map
        (fun i => b.buffer.getD ((b.read_pos + i) % b.capacity) 0) := rfl
  rw [haread]
  set n := min len (b.write_pos - b.read_pos) with hn
  have hnwr : n ≤ b.write_pos - b.read_pos := min_le_right _ _
  have hrn : (b.read len).1.read_pos = b.read_pos + n := by
    rw [hr1]
    dsimp only
    rw [havail]
  have hwp0 : (b.read len).1.write_pos = b.write_pos := by rw [hr1]
  have hcp0 : (b.read len).1.capacity = b.capacity := by rw [hr1]
  have hbp0 : (b.read len).1.buffer = b.buffer := by rw [hr1]
  refine ⟨⟨?_, ?_, ?_, ?_⟩, ?_, ?_, ?_⟩
  · rw [hcp0]; exact hcap
  · rw [hbp0, hcp0]; exact hbuf
  · rw [hrn, hwp0]; omega
  · rw [hrn, hwp0, hcp0]; omega
  · rw [hr2, havail]
    simp
  · rw [hr2, havail]
    apply List.ext_getElem
    · simp only [List.length_map, List.length_range, List.length_take,
        segment_length]
      omega
    · intro i h1 h2
      simp only [List.length_map, List.length_range] at h1
      rw [List.getElem_map, List.getElem_range]
      rw [List.getElem_take]
      rw [segment_getElem _ i (by rw [segment_length]; omega)]
  · apply List.ext_getElem
    · rw [segment_length, hrn, List.length_drop, segment_length]
      have hwp : (b.read len).1.write_pos = b.write_pos := by rw [hr1]
      rw [hwp]
      omega
    · intro i h1 h2
      rw [segment_getElem _ i h1]
      have hwp : (b.read len).1.write_pos = b.write_pos := by rw [hr1]
      have hcp : (b.read len).1.capacity = b.capacity := by rw [hr1]
      have hbp : (b.read len).1.buffer = b.buffer := by rw [hr1]
      rw [List.getElem_drop]
      rw [segment_getElem _ (n + i) ?hni]
      case hni =>
        rw [segment_length]
        rw [segment_length, hrn, hwp] at h1
        omega
      rw [hrn, hcp, hbp]
      congr 2
      omega

/-- Running any operation sequence from a valid state preserves the
invariant, and the consumed stream plus the still-pending segment equals
the previously pending segment plus the accepted stream. -/
theorem runOps_inv_refines : ∀ (ops : List RingOp) (b : LockFreeRingBuffer),
    RingInv b →
    RingInv (runOps b ops).1 ∧
    (runOps b ops).2.2 ++ segment (runOps b ops).1
      = segment b ++ (runOps b ops).2.1 := by
  intro ops
  induction ops with
  | nil =>
      intro b hb
      exact ⟨hb, by simp [runOps]⟩
  | cons op rest ih =>
      intro b hb
      cases op with
      | write s =>
          obtain ⟨hI, _, hseg⟩ := write_spec b hb s
          obtain ⟨hIf, href⟩ := ih (b.write s).1 hI
          refine ⟨hIf, ?_⟩
          show (runOps (b.write s).1 rest).2.2
              ++ segment (runOps (b.write s).1 rest).1
            = segment b ++ (s.take ((b.write s).2)
              ++ (runOps (b.write s).1 rest).2.1)
          rw [href, hseg, List.append_assoc]
      | read len =>
          obtain ⟨hI, _, hout, hseg⟩ := read_spec b hb len
          obtain ⟨hIf, href⟩ := ih (b.read len).1 hI
          refine ⟨hIf, ?_⟩
          show ((b.read len).2 ++ (runOps (b.read len).1 rest).2.2)
              ++ segment (runOps (b.read len).1 rest).1
            = segment b ++ (runOps (b.read len).1 rest).2.1
          rw [List.append_assoc, href, hseg, hout, ← List.append_assoc,
            List.take_append_drop]

/-- Claim C3: along any operation sequence on a fresh ring buffer, writes
store and report `min(len, available_write)` samples, reads are symmetric,
`available_read + available_write + 1 ≤ capacity` holds at every state,
`is_empty` holds exactly when `available_read` is zero, and the consumed
sample stream is always a prefix of the accepted (written) stream — FIFO
order. -/
theorem ring_buffer_spec (c : ℕ) (ops : List RingOp) :
    ((runOps (LockFreeRingBuffer.with_capacity c) ops).1.available_read
      + (runOps (LockFreeRingBuffer.with_capacity c) ops).1.available_write
      + 1 ≤ (runOps (LockFreeRingBuffer.with_capacity c) ops).1.capacity) ∧
    ((runOps (LockFreeRingBuffer.with_capacity c) ops).1.is_empty = true
      ↔ (runOps (LockFreeRingBuffer.with_capacity c) ops).1.available_read
        = 0) ∧
    (∀ s : List ℚ,
      ((runOps (LockFreeRingBuffer.with_capacity c) ops).1.write s).2
        = min s.length
          (runOps (LockFreeRingBuffer.with_capacity c) ops).1.available_write) ∧
    (∀ len : ℕ,
      (((runOps (LockFreeRingBuffer.with_capacity c) ops).1.read len).2).length
        = min len
          (runOps (LockFreeRingBuffer.with_capacity c) ops).1.available_read) ∧
    ((runOps (LockFreeRingBuffer.with_capacity c) ops).2.2
      = ((runOps (LockFreeRingBuffer.with_capacity c) ops).2.1).take
        ((runOps (LockFreeRingBuffer.with_capacity c) ops).2.2).length) := by
  have hInv0 : RingInv (LockFreeRingBuffer.with_capacity c) := by
    refine ⟨?_, ?_, ?_, ?_⟩
    · exact pow_pos (by norm_num) _
    · simp [LockFreeRingBuffer.with_capacity]
    · exact le_refl 0
    · simp only [LockFreeRingBuffer.with_capacity]
      exact pow_pos (by norm_num) _
  obtain ⟨hIf, href⟩ := runOps_inv_refines ops _ hInv0
  obtain ⟨hcap, hbuf, hrw, hlt⟩ := hIf
  have haread : (runOps (LockFreeRingBuffer.with_capacity c) ops).1.available_read
      = (runOps (LockFreeRingBuffer.with_capacity c) ops).1.write_pos
        - (runOps (LockFreeRingBuffer.with_capacity c) ops).1.read_pos := by
    unfold LockFreeRingBuffer.available_read
      LockFreeRingBuffer.available_read_internal
    rw [if_pos hrw]
  have hawrite : (runOps (LockFreeRingBuffer.with_capacity c) ops).1.available_write
      = (runOps (LockFreeRingBuffer.with_capacity c) ops).1.capacity
        - ((runOps (LockFreeRingBuffer.with_capacity c) ops).1.write_pos
          - (runOps (LockFreeRingBuffer.with_capacity c) ops).1.read_pos)
        - 1 := by
    unfold LockFreeRingBuffer.available_write
      LockFreeRingBuffer.available_write_internal
    rw [if_pos hrw]
  refine ⟨by rw [haread, hawrite]; omega, ?_, fun s => rfl, ?_, ?_⟩
  · rw [haread]
    unfold LockFreeRingBuffer.is_empty
    constructor
    · intro h
      have : (runOps (LockFreeRingBuffer.with_capacity c) ops).1.read_pos
          = (runOps (LockFreeRingBuffer.with_capacity c) ops).1.write_pos :=
        by exact_mod_cast of_decide_eq_true h
      omega
    · intro h
      have : (runOps (LockFreeRingBuffer.with_capacity c) ops).1.read_pos
          = (runOps (LockFreeRingBuffer.with_capacity c) ops).1.write_pos :=
        by omega
      simp [this]
  · intro len
    simp [LockFreeRingBuffer.read, LockFreeRingBuffer.available_read]
  · have hseg0 : segment (LockFreeRingBuffer.with_capacity c) = [] := rfl
    rw [hseg0] at href
    simp only [List.nil_append] at href
    rw [← href]
    rw [List.take_left]

/-- `zipAccum` keeps the length of the accumulator. -/
theorem zipAccum_length (gain : ℝ) :
    ∀ (out buf : List ℝ), (zipAccum gain out buf).length = out.length := by
  intro out
  induction out with
  | nil => intro buf; cases buf <;> rfl
  | cons o rest ih =>
      intro buf
      cases buf with
      | nil => rfl
      | cons s buf => simp [zipAccum, ih]

/-- Sample-level reading of `zipAccum`: inside both lengths the gained
sample is added, outside the accumulator is unchanged. -/
theorem zipAccum_getD (gain : ℝ) :
    ∀ (out buf : List ℝ) (k : ℕ),
      (zipAccum gain out buf).getD k 0
        = out.getD k 0 + (if k < out.length ∧ k < buf.length
            then gain * buf.getD k 0 else 0) := by
  intro out
  induction out with
  | nil =>
      intro buf k
      cases buf <;> simp [zipAccum]
  | cons o rest ih =>
      intro buf k
      cases buf with
      | nil => simp [zipAccum]
      | cons s buf =>
          cases k with
          | zero =>
              simp [zipAccum]
              ring
          | succ k =>
              simp only [zipAccum, List.getD_cons_succ, List.length_cons,
                Nat.succ_lt_succ_iff]
              exact ih buf k

/-- `outputSample` of the empty output map. -/
theorem outputSample_nil (d : String) (k : ℕ) : outputSample [] d k = 0 :=
  rfl

/-- `outputSample` of a cons cell. -/
theorem outputSample_cons (k1 : String) (v : List ℝ)
    (rest : List (String × List ℝ)) (d : String) (k : ℕ) :
    outputSample ((k1, v) :: rest) d k
      = if k1 = d then v.getD k 0 else outputSample rest d k := by
  unfold outputSample
  rw [lookupA_cons]
  by_cases h : k1 = d <;> simp [h]

/-- `getD` of a constant-zero map is zero. -/
theorem getD_map_zero (v : List ℝ) (k : ℕ) :
    (v.map (fun _ => (0 : ℝ))).getD k 0 = 0 := by
  simp only [List.getD_eq_getElem?_getD, List.getElem?_map]
  cases v[k]? <;> simp

/-- `getD` of a pointwise scaling. -/
theorem getD_map_mul (v : List ℝ) (c : ℝ) (k : ℕ) :
    (v.map (fun s => s * c)).getD k 0 = v.getD k 0 * c := by
  simp only [List.getD_eq_getElem?_getD, List.getElem?_map]
  cases v[k]? <;> simp

/-- `accumulate` keeps every buffer of the output map at length `L` when
the accumulated buffer has length `L`. -/
theorem accumulate_lengths (gain : ℝ) (buf : List ℝ) (L : ℕ)
    (hbuf : buf.length = L) :
    ∀ (outs : List (String × List ℝ)) (oid : String),
      (∀ p ∈ outs, p.2.length = L) →
      (∀ p ∈ accumulate outs oid gain buf, p.2.length = L) := by
  intro outs
  induction outs with
  | nil =>
      intro oid _ p hp
      simp only [accumulate, List.mem_singleton] at hp
      rw [hp]
      simp [zipAccum_length, hbuf]
  | cons hd tl ih =>
      intro oid h p hp
      obtain ⟨k1, v⟩ := hd
      have hv : v.length = L := h (k1, v) (by simp)
      have htl : ∀ q ∈ tl, q.2.length = L := fun q hq => h q (by simp [hq])
      simp only [accumulate] at hp
      by_cases h1 : k1 = oid
      · rw [if_pos h1] at hp
        rcases List.mem_cons.1 hp with rfl | hmem
        · simp [zipAccum_length, hv]
        · exact htl p hmem
      · rw [if_neg h1] at hp
        rcases List.mem_cons.1 hp with rfl | hmem
        · exact hv
        · exact ih oid htl p hmem

/-- One `accumulate` adds exactly `gain·buf[k]` at the accumulated
destination and nothing elsewhere. -/
theorem outputSample_accumulate (gain : ℝ) (buf : List ℝ) (L k : ℕ)
    (hbuf : buf.length = L) (hk : k < L) :
    ∀ (outs : List (String × List ℝ)) (oid d : String),
      (∀ p ∈ outs, p.2.length = L) →
      outputSample (accumulate outs oid gain buf) d k
        = outputSample outs d k
          + (if d = oid then gain * buf.getD k 0 else 0) := by
  intro outs
  induction outs with
  | nil =>
      intro oid d _
      simp only [accumulate]
      rw [outputSample_cons, outputSample_nil]
      by_cases hd : oid = d
      · rw [if_pos hd, if_pos hd.symm]
        rw [zipAccum_getD]
        rw [if_pos ⟨by simp [hbuf, hk], by rw [hbuf]; exact hk⟩]
        simp
      · rw [if_neg hd, if_neg (fun he => hd he.symm)]
        simp
  | cons hd tl ih =>
      intro oid d h
      obtain ⟨k1, v⟩ := hd
      have hv : v.length = L := h (k1, v) (by simp)
      have htl : ∀ q ∈ tl, q.2.length = L := fun q hq => h q (by simp [hq])
      simp only [accumulate]
      by_cases h1 : k1 = oid
      · rw [if_pos h1]
        rw [outputSample_cons, outputSample_cons]
        by_cases h2 : k1 = d
        · rw [if_pos h2, if_pos h2]
          rw [zipAccum_getD]
          rw [if_pos ⟨by rw [hv]; exact hk, by rw [hbuf]; exact hk⟩]
          rw [if_pos (h2.symm.trans h1)]
        · rw [if_neg h2, if_neg h2]
          rw [if_neg (fun hdo => h2 (h1.trans hdo.symm))]
          simp
      · rw [if_neg h1]
        rw [outputSample_cons, outputSample_cons]
        by_cases h2 : k1 = d
        · rw [if_pos h2, if_pos h2]
          rw [if_neg (fun hdo => h1 (h2.trans hdo))]
          simp
        · rw [if_neg h2, if_neg h2]
          exact ih oid d htl

/-- Folding `accumulate` over a destination list adds the gained sample
once per occurrence of the destination. -/
theorem outputSample_foldl_accumulate (gain : ℝ) (buf : List ℝ) (L k : ℕ)
    (hbuf : buf.length = L) (hk : k < L) :
    ∀ (oids : List String) (outs : List (String × List ℝ)) (d : String),
      (∀ p ∈ outs, p.2.length = L) →
      (outputSample (oids.foldl (fun o oid => accumulate o oid gain buf) outs)
          d k
        = outputSample outs d k
          + (oids.count d : ℝ) * (gain * buf.getD k 0)) ∧
      (∀ p ∈ oids.foldl (fun o oid => accumulate o oid gain buf) outs,
        p.2.length = L) := by
  intro oids
  induction oids with
  | nil =>
      intro outs d h
      exact ⟨by simp, h⟩
  | cons o rest ih =>
      intro outs d h
      simp only [List.foldl_cons]
      have hacc := accumulate_lengths gain buf L hbuf outs o h
      obtain ⟨hsum, hlenf⟩ := ih (accumulate outs o gain buf) d hacc
      refine ⟨?_, hlenf⟩
      rw [hsum, outputSample_accumulate gain buf L k hbuf hk outs o d h]
      by_cases hod : o = d
      · subst hod
        rw [List.count_cons_self, if_pos rfl]
        push_cast
        ring
      · rw [List.count_cons_of_ne (fun he => hod he.symm),
          if_neg (fun he => hod he.symm)]
        ring

/-- With no duplicate routing keys, `get_outputs` lists each destination at
most once. -/
theorem getOutputs_nodup : ∀ (r : Routing),
    (r.map Prod.fst).Nodup → ∀ c, (getOutputs r c).Nodup := by
  intro r
  induction r with
  | nil =>
      intro _ c
      simp [getOutputs]
  | cons e rest ih =>
      intro h c
      rw [List.map_cons, List.nodup_cons] at h
      obtain ⟨h1, h2⟩ := h
      simp only [getOutputs, List.filter_cons]
      by_cases hc : (e.1.1 = c && e.2) = true
      · rw [if_pos hc]
        simp only [List.map_cons]
        rw [List.nodup_cons]
        constructor
        · intro hmem
          rcases List.mem_map.1 hmem with ⟨p, hp, hpe⟩
          have hpf := List.mem_filter.1 hp
          have hp1 : p.1.1 = c := by
            have hx := hpf.2
            simp only [Bool.and_eq_true, decide_eq_true_eq] at hx
            exact hx.1
          have he1 : e.1.1 = c := by
            simp only [Bool.and_eq_true, decide_eq_true_eq] at hc
            exact hc.1
          have hkey : p.1 = e.1 := by
            have : p.1 = (p.1.1, p.1.2) := rfl
            rw [this, hp1, hpe, ← he1]
          apply h1
          rw [← hkey]
          exact List.mem_map_of_mem Prod.fst hpf.1
        · exact ih h2 c
      · rw [if_neg hc]
        exact ih h2 c

/-- `is_audible` unpacked: unmuted, and audible under the solo rule. -/
theorem is_audible_iff (c : MixerChannel) (any_solo : Bool) :
    c.is_audible any_solo = true
      ↔ (c.muted = false ∧ (any_solo = false ∨ c.solo = true)) := by
  cases hm : c.muted <;> cases hs : c.solo <;> cases any_solo <;>
    simp [MixerChannel.is_audible, hm, hs]

/-- An audible channel is not muted. -/
theorem is_audible_not_muted (c : MixerChannel) (any_solo : Bool)
    (h : c.is_audible any_solo = true) : c.muted = false :=
  ((is_audible_iff c any_solo).1 h).1

/-- One channel step of `process_with_effects`: an audible channel adds its
gained (and effects-processed) sample to every destination the routing
matrix lists for it, exactly once per destination; an inaudible or missing
channel adds nothing. -/
theorem processChannel_spec (m : MixerEngine)
    (eff : String → Option (List ℝ → List ℝ)) (L k : ℕ) (hk : k < L)
    (hnodup : (m.routing.map Prod.fst).Nodup)
    (heff : ∀ cid h, eff cid = some h → ∀ l, (h l).length = l.length)
    (entry : String × List ℝ) (hlen : entry.2.length = L)
    (outs : List (String × List ℝ)) (houts : ∀ p ∈ outs, p.2.length = L)
    (d : String) :
    (outputSample (processChannel m (anySolo m) eff outs entry) d k
      = outputSample outs d k
        + (if audibleInMix m entry.1 ∧ d ∈ getOutputs m.routing entry.1
            then channelGain m entry.1
              * (effApply eff entry.1 entry.2).getD k 0
            else 0)) ∧
    (∀ p ∈ processChannel m (anySolo m) eff outs entry, p.2.length = L) := by
  have hproclen : (effApply eff entry.1 entry.2).length = L := by
    unfold effApply
    cases he : eff entry.1 with
    | none => exact hlen
    | some hfun => rw [heff entry.1 hfun he entry.2]; exact hlen
  cases hch : lookupA m.channels entry.1 with
  | none =>
      have haud : audibleInMix m entry.1 = false := by
        unfold audibleInMix; rw [hch]
      have hred : processChannel m (anySolo m) eff outs entry = outs := by
        simp [processChannel, hch]
      rw [hred]
      refine ⟨?_, houts⟩
      simp [haud]
  | some c =>
      cases haud : c.is_audible (anySolo m) with
      | false =>
          have haud2 : audibleInMix m entry.1 = false := by
            unfold audibleInMix; rw [hch]; exact haud
          have hred : processChannel m (anySolo m) eff outs entry = outs := by
            simp [processChannel, hch, haud]
          rw [hred]
          refine ⟨?_, houts⟩
          simp [haud2]
      | true =>
          have hmut : c.muted = false := is_audible_not_muted c _ haud
          have haud2 : audibleInMix m entry.1 = true := by
            unfold audibleInMix; rw [hch]; exact haud
          have hred : processChannel m (anySolo m) eff outs entry
              = (getOutputs m.routing entry.1).foldl
                  (fun o oid => accumulate o oid
                    (VolumeDecibels.to_amplitude c.volume)
                    (effApply eff entry.1 entry.2)) outs := by
            simp [processChannel, hch, haud, hmut, effApply]
          obtain ⟨hsum, hlen2⟩ := outputSample_foldl_accumulate
            (VolumeDecibels.to_amplitude c.volume)
            (effApply eff entry.1 entry.2) L k hproclen hk
            (getOutputs m.routing entry.1) outs d houts
          rw [hred]
          refine ⟨?_, hlen2⟩
          rw [hsum]
          have hga : channelGain m entry.1
              = VolumeDecibels.to_amplitude c.volume := by
            unfold channelGain; rw [hch]
          have hnd := getOutputs_nodup m.routing hnodup entry.1
          by_cases hmem : d ∈ getOutputs m.routing entry.1
          · rw [List.count_eq_one_of_mem hnd hmem,
              if_pos ⟨haud2, hmem⟩, hga]
            push_cast
            ring
          · rw [List.count_eq_zero_of_not_mem hmem,
              if_neg (fun hc => hmem hc.2)]
            push_cast
            ring

/-- Folding `processChannel` over the inputs realises `mixedSample`. -/
theorem outputSample_fold_inputs (m : MixerEngine)
    (eff : String → Option (List ℝ → List ℝ)) (L k : ℕ) (hk : k < L)
    (hnodup : (m.routing.map Prod.fst).Nodup)
    (heff : ∀ cid h, eff cid = some h → ∀ l, (h l).length = l.length) :
    ∀ (inputs : List (String × List ℝ)) (outs : List (String × List ℝ))
      (d : String),
      (∀ p ∈ inputs, p.2.length = L) →
      (∀ p ∈ outs, p.2.length = L) →
      outputSample (inputs.foldl (processChannel m (anySolo m) eff) outs) d k
        = outputSample outs d k + mixedSample m inputs eff d k := by
  intro inputs
  induction inputs with
  | nil =>
      intro outs d _ _
      simp [mixedSample]
  | cons entry rest ih =>
      intro outs d h hout
      have hlen := h entry (by simp)
      have hrest : ∀ p ∈ rest, p.2.length = L := fun p hp => h p (by simp [hp])
      obtain ⟨hsum1, hlen1⟩ := processChannel_spec m eff L k hk hnodup heff
        entry hlen outs hout d
      simp only [List.foldl_cons]
      rw [ih (processChannel m (anySolo m) eff outs entry) d hrest hlen1,
        hsum1]
      have hmix : mixedSample m (entry :: rest) eff d k
          = (if audibleInMix m entry.1 ∧ d ∈ getOutputs m.routing entry.1
              then channelGain m entry.1
                * (effApply eff entry.1 entry.2).getD k 0
              else 0) + mixedSample m rest eff d k := by
        simp [mixedSample]
      rw [hmix]
      ring

/-- The bus-gain pass multiplies each destination's samples by its bus
factor (`1` for non-bus destinations; the zeroing of a muted bus is the
multiplication by its zero gain). -/
theorem outputSample_applyBusGain (m : MixerEngine) :
    ∀ (outs : List (String × List ℝ)) (d : String) (k : ℕ),
      outputSample (applyBusGain m outs) d k
        = busFactor m d * outputSample outs d k := by
  intro outs
  induction outs with
  | nil =>
      intro d k
      simp [applyBusGain, outputSample_nil]
  | cons p rest ih =>
      intro d k
      obtain ⟨k1, v⟩ := p
      cases hf : m.buses.find? (fun b => b.id = k1) with
      | none =>
          have hred : applyBusGain m ((k1, v) :: rest)
              = (k1, v) :: applyBusGain m rest := by
            simp [applyBusGain, hf]
          rw [hred, outputSample_cons, outputSample_cons]
          by_cases hd : k1 = d
          · subst hd
            rw [if_pos rfl, if_pos rfl]
            have hbf : busFactor m k1 = 1 := by
              unfold busFactor; rw [hf]
            rw [hbf, one_mul]
          · rw [if_neg hd, if_neg hd]
            exact ih d k
      | some bus =>
          by_cases hg : Bus.gain bus = 0
          · have hred : applyBusGain m ((k1, v) :: rest)
                = (k1, v.map (fun _ => 0)) :: applyBusGain m rest := by
              simp [applyBusGain, hf, hg]
            rw [hred, outputSample_cons, outputSample_cons]
            by_cases hd : k1 = d
            · subst hd
              rw [if_pos rfl, if_pos rfl]
              have hbf : busFactor m k1 = Bus.gain bus := by
                unfold busFactor; rw [hf]
              rw [hbf, hg, getD_map_zero, zero_mul]
            · rw [if_neg hd, if_neg hd]
              exact ih d k
          · have hred : applyBusGain m ((k1, v) :: rest)
                = (k1, v.map (fun s => s * Bus.gain bus))
                  :: applyBusGain m rest := by
              simp [applyBusGain, hf, hg]
            rw [hred, outputSample_cons, outputSample_cons]
            by_cases hd : k1 = d
            · subst hd
              rw [if_pos rfl, if_pos rfl]
              have hbf : busFactor m k1 = Bus.gain bus := by
                unfold busFactor; rw [hf]
              rw [hbf, getD_map_mul]
              ring
            · rw [if_neg hd, if_neg hd]
              exact ih d k

/-- Unity bus gain: `db_to_gain 0 = 1`. -/
theorem db_to_gain_zero : db_to_gain 0 = 1 := by
  unfold db_to_gain
  rw [if_neg (by norm_num)]
  norm_num

/-- Unity channel gain: `to_amplitude 0 = 1`. -/
theorem to_amplitude_zero : VolumeDecibels.to_amplitude 0 = 1 := by
  unfold VolumeDecibels.to_amplitude VolumeDecibels.MIN_GAIN
  rw [if_neg (by norm_num)]
  norm_num

/-- A freshly constructed channel stores exactly 0 dB. -/
theorem new_unity : VolumeDecibels.new VolumeDecibels.UNITY_GAIN = 0 := by
  unfold VolumeDecibels.new clampR VolumeDecibels.UNITY_GAIN
    VolumeDecibels.MIN_GAIN VolumeDecibels.MAX_GAIN
  rw [min_eq_left (by norm_num), max_eq_right (by norm_num)]

/-- Claim C1: a channel contributes to the mix iff it exists, is not muted
and either no channel is soloed or it is soloed itself; each audible
channel's (effects-processed) samples, scaled by `amplitude(volume)`, are
accumulated exactly once into every destination the routing matrix returns
for it, and each destination that names a bus is then scaled by the bus
gain; with three unity-gain channels routed to bus A1 on all-ones inputs,
A1 reads 3 with no solo, 1 with only channel 2 soloed, and 0 (silence)
with every channel muted. -/
theorem process_with_effects_spec :
    (∀ (m : MixerEngine) (cid : String),
        audibleInMix m cid = true
          ↔ ∃ c, lookupA m.channels cid = some c ∧ c.muted = false
              ∧ (anySolo m = false ∨ c.solo = true)) ∧
    (∀ (m : MixerEngine) (inputs : List (String × List ℝ))
        (eff : String → Option (List ℝ → List ℝ)) (L : ℕ),
        (m.routing.map Prod.fst).Nodup →
        (∀ p ∈ inputs, p.2.length = L) →
        (∀ cid h, eff cid = some h → ∀ l, (h l).length = l.length) →
        ∀ (d : String) (k : ℕ), k < L →
          outputSample (m.process_with_effects inputs eff) d k
            = busFactor m d * mixedSample m inputs eff d k) ∧
    outputSample (demoMixer.process demoInputs) ("A1") 0 = 3 ∧
    outputSample (demoMixerSolo.process demoInputs) ("A1") 0 = 1 ∧
    outputSample (demoMixerMuted.process demoInputs) ("A1") 0 = 0 := by
  have hmain : ∀ (m : MixerEngine) (inputs : List (String × List ℝ))
      (eff : String → Option (List ℝ → List ℝ)) (L : ℕ),
      (m.routing.map Prod.fst).Nodup →
      (∀ p ∈ inputs, p.2.length = L) →
      (∀ cid h, eff cid = some h → ∀ l, (h l).length = l.length) →
      ∀ (d : String) (k : ℕ), k < L →
        outputSample (m.process_with_effects inputs eff) d k
          = busFactor m d * mixedSample m inputs eff d k := by
    intro m inputs eff L hnodup hlen heff d k hk
    have hunf : m.process_with_effects inputs eff
        = applyBusGain m (inputs.foldl (processChannel m (anySolo m) eff) []) :=
      rfl
    rw [hunf, outputSample_applyBusGain,
      outputSample_fold_inputs m eff L k hk hnodup heff inputs [] d hlen
        (by simp), outputSample_nil, zero_add]
  have heffN : ∀ (cid : String) (h : List ℝ → List ℝ),
      (fun _ : String => (none : Option (List ℝ → List ℝ))) cid = some h →
      ∀ l : List ℝ, (h l).length = l.length := by
    intro cid h he
    exact absurd he (by simp)
  have hlenD : ∀ p ∈ demoInputs, p.2.length = 1 := by
    intro p hp
    simp only [demoInputs, List.mem_cons, List.not_mem_nil, or_false] at hp
    rcases hp with rfl | rfl | rfl <;> rfl
  have hrouteD : demoMixer.routing
      = [(("ch1", "A1"), true), (("ch2", "A1"), true),
          (("ch3", "A1"), true)] := rfl
  have hnodupD : (demoMixer.routing.map Prod.fst).Nodup := by
    rw [hrouteD]
    decide
  have hbusD : busFactor demoMixer ("A1") = 1 := by
    have hfind : demoMixer.buses.find? (fun b => b.id = ("A1" : String))
        = some (Bus.standard .A1) := rfl
    unfold busFactor
    rw [hfind]
    show Bus.gain (Bus.standard .A1) = 1
    unfold Bus.gain Bus.standard Bus.new
    rw [if_neg (by simp)]
    exact db_to_gain_zero
  refine ⟨?_, hmain, ?_, ?_, ?_⟩
  · intro m cid
    unfold audibleInMix
    cases hch : lookupA m.channels cid with
    | none => simp
    | some c =>
        simp only
        constructor
        · intro h
          exact ⟨c, rfl, (is_audible_iff c (anySolo m)).1 h⟩
        · rintro ⟨c2, hc2, hprops⟩
          obtain rfl : c2 = c := by
            injection hc2 with h
            exact h.symm
          exact (is_audible_iff _ (anySolo m)).2 hprops
  · have h := hmain demoMixer demoInputs (fun _ => none) 1 hnodupD hlenD
      heffN ("A1") 0 (by norm_num)
    rw [show demoMixer.process demoInputs
      = demoMixer.process_with_effects demoInputs (fun _ => none) from rfl, h,
      hbusD, one_mul]
    have ha1 : audibleInMix demoMixer ("ch1") = true := rfl
    have ha2 : audibleInMix demoMixer ("ch2") = true := rfl
    have ha3 : audibleInMix demoMixer ("ch3") = true := rfl
    have ho1 : getOutputs demoMixer.routing ("ch1") = ["A1"] := rfl
    have ho2 : getOutputs demoMixer.routing ("ch2") = ["A1"] := rfl
    have ho3 : getOutputs demoMixer.routing ("ch3") = ["A1"] := rfl
    have hg1 : channelGain demoMixer ("ch1")
        = VolumeDecibels.to_amplitude (VolumeDecibels.new
            VolumeDecibels.UNITY_GAIN) := rfl
    have hg2 : channelGain demoMixer ("ch2")
        = VolumeDecibels.to_amplitude (VolumeDecibels.new
            VolumeDecibels.UNITY_GAIN) := rfl
    have hg3 : channelGain demoMixer ("ch3")
        = VolumeDecibels.to_amplitude (VolumeDecibels.new
            VolumeDecibels.UNITY_GAIN) := rfl
    simp [mixedSample, demoInputs, effApply, ha1, ha2, ha3, ho1, ho2, ho3,
      hg1, hg2, hg3, new_unity, to_amplitude_zero]
    norm_num
  · have hnodupS : (demoMixerSolo.routing.map Prod.fst).Nodup := hnodupD
    have h := hmain demoMixerSolo demoInputs (fun _ => none) 1 hnodupS hlenD
      heffN ("A1") 0 (by norm_num)
    rw [show demoMixerSolo.process demoInputs
      = demoMixerSolo.process_with_effects demoInputs (fun _ => none) from
        rfl, h]
    have hbusS : busFactor demoMixerSolo ("A1") = 1 := hbusD
    rw [hbusS, one_mul]
    have ha1 : audibleInMix demoMixerSolo ("ch1") = false := rfl
    have ha2 : audibleInMix demoMixerSolo ("ch2") = true := rfl
    have ha3 : audibleInMix demoMixerSolo ("ch3") = false := rfl
    have ho2 : getOutputs demoMixerSolo.routing ("ch2") = ["A1"] := rfl
    have hg2 : channelGain demoMixerSolo ("ch2")
        = VolumeDecibels.to_amplitude (VolumeDecibels.new
            VolumeDecibels.UNITY_GAIN) := rfl
    simp [mixedSample, demoInputs, effApply, ha1, ha2, ha3, ho2, hg2,
      new_unity, to_amplitude_zero]
  · have hnodupM : (demoMixerMuted.routing.map Prod.fst).Nodup := hnodupD
    have h := hmain demoMixerMuted demoInputs (fun _ => none) 1 hnodupM hlenD
      heffN ("A1") 0 (by norm_num)
    rw [show demoMixerMuted.process demoInputs
      = demoMixerMuted.process_with_effects demoInputs (fun _ => none) from
        rfl, h]
    have ha1 : audibleInMix demoMixerMuted ("ch1") = false := rfl
    have ha2 : audibleInMix demoMixerMuted ("ch2") = false := rfl
    have ha3 : audibleInMix demoMixerMuted ("ch3") = false := rfl
    simp [mixedSample, demoInputs, effApply, ha1, ha2, ha3]

/-- Witness for claim C1, at the three-channel demo mixer: the hypotheses
of the closed-form conjunct hold and it yields the A1 output sample. -/
theorem process_with_effects_spec_witness :
    (demoMixer.routing.map Prod.fst).Nodup ∧
    (∀ p ∈ demoInputs, p.2.length = 1) ∧
    outputSample (demoMixer.process_with_effects demoInputs (fun _ => none))
        ("A1") 0
      = busFactor demoMixer ("A1")
        * mixedSample demoMixer demoInputs (fun _ => none) ("A1") 0 := by
  have hnodupD : (demoMixer.routing.map Prod.fst).Nodup := by
    rw [show demoMixer.routing
      = [(("ch1", "A1"), true), (("ch2", "A1"), true),
          (("ch3", "A1"), true)] from rfl]
    decide
  have hlenD : ∀ p ∈ demoInputs, p.2.length = 1 := by
    intro p hp
    simp only [demoInputs, List.mem_cons, List.not_mem_nil, or_false] at hp
    rcases hp with rfl | rfl | rfl <;> rfl
  have heffN : ∀ (cid : String) (h : List ℝ → List ℝ),
      (fun _ : String => (none : Option (List ℝ → List ℝ))) cid = some h →
      ∀ l : List ℝ, (h l).length = l.length := by
    intro cid h he
    exact absurd he (by simp)
  exact ⟨hnodupD, hlenD,
    process_with_effects_spec.2.1 demoMixer demoInputs (fun _ => none) 1
      hnodupD hlenD heffN ("A1") 0 (by norm_num)⟩

end Troubadour
